import Mathlib

/-!
# Verification of the json-formatter compare engine

Shallow embedding of the JSON comparison core of `src/frontend/main.js`:

* `buildLineDiff` — LCS dynamic programming table, backtracking alignment,
  and the single-pair Removed/Added merge (lines 51–98 of the source);
* `sortKeys` / `normalizedJson` — canonicalization (lines 31–49);
* `escapeHtml` / `buildDiffHtml` / `serializeDiff` — renderers (lines 22–29,
  100–131);
* `handleCompare` — the compare state transition (lines 209–228).

Lines are opaque strings compared with exact equality, mirroring the
JavaScript `===` comparison on strings.
-/

namespace JsonFormatter


/-- A diff entry as pushed by `buildLineDiff` in `src/frontend/main.js`:
a tagged object `{type, left, right}`.  Each constructor carries exactly
the non-empty text fields the source stores (`added` stores `left: ''`,
`removed` stores `right: ''`). -/
inductive DiffEntry : Type where
  | same (left right : String)
  | added (right : String)
  | removed (left : String)
  | changed (left right : String)
deriving DecidableEq, Repr

/-- The dynamic-programming table of `buildLineDiff` (main.js lines 54–64):
`dp L R i j` is `dp[i][j]`, with `dp[0][*] = dp[*][0] = 0` and
`dp[i][j] = dp[i-1][j-1]+1` when `leftLines[i-1] === rightLines[j-1]`,
else `max (dp[i-1][j]) (dp[i][j-1])`.  In-range accesses `leftLines[i-1]`
are rendered as `L.getD (i-1) ""`. -/
def dp (L R : List String) : Nat → Nat → Nat
  | 0, _ => 0
  | _ + 1, 0 => 0
  | i + 1, j + 1 =>
    if L.getD i "" = R.getD j "" then
      dp L R i j + 1
    else
      max (dp L R i (j + 1)) (dp L R (i + 1) j)
termination_by i j => i + j

/-- The backtracking loop of `buildLineDiff` (main.js lines 66–82), starting
from indices `(i, j)` and walking to `(0, 0)`.  The produced list is in push
order (reverse document order), exactly as the source's `diff` array before
`diff.reverse()`.  At `(i+1, j+1)` the source first tests line equality, then
the `>=` tie-break `dp[i][j-1] >= dp[i-1][j]`; when `i = 0` the second branch
always fires, and when `j = 0` the third. -/
def backtrack (L R : List String) : Nat → Nat → List DiffEntry
  | 0, 0 => []
  | 0, j + 1 => .added (R.getD j "") :: backtrack L R 0 j
  | i + 1, 0 => .removed (L.getD i "") :: backtrack L R i 0
  | i + 1, j + 1 =>
    if L.getD i "" = R.getD j "" then
      .same (L.getD i "") (R.getD j "") :: backtrack L R i j
    else if dp L R (i + 1) j ≥ dp L R i (j + 1) then
      .added (R.getD j "") :: backtrack L R (i + 1) j
    else
      .removed (L.getD i "") :: backtrack L R i (j + 1)
termination_by i j => i + j

/-- The merge pass of `buildLineDiff` (main.js lines 86–96): a left-to-right
scan with one-token lookahead that collapses a `removed` entry immediately
followed by an `added` entry into a single `changed` entry and advances past
both. -/
def mergeDiff : List DiffEntry → List DiffEntry
  | .removed l :: .added r :: rest => .changed l r :: mergeDiff rest
  | e :: rest => e :: mergeDiff rest
  | [] => []

/-- `buildLineDiff` (main.js lines 51–98): DP table, backtracking, reversal
to document order, then the merge pass. -/
def buildLineDiff (L R : List String) : List DiffEntry :=
  mergeDiff ((backtrack L R L.length R.length).reverse)

/-- Count of `same` entries in a diff. -/
def countSame : List DiffEntry → Nat
  | [] => 0
  | .same _ _ :: rest => countSame rest + 1
  | _ :: rest => countSame rest

/-- The left-bearing texts of a diff, in order: `Same.left`, `Removed.left`,
`Changed.left` (entries of type `added` carry no left text). -/
def leftTexts : List DiffEntry → List String
  | [] => []
  | .same l _ :: rest => l :: leftTexts rest
  | .removed l :: rest => l :: leftTexts rest
  | .changed l _ :: rest => l :: leftTexts rest
  | .added _ :: rest => leftTexts rest

/-- The right-bearing texts of a diff, in order: `Same.right`, `Added.right`,
`Changed.right`. -/
def rightTexts : List DiffEntry → List String
  | [] => []
  | .same _ r :: rest => r :: rightTexts rest
  | .added r :: rest => r :: rightTexts rest
  | .changed _ r :: rest => r :: rightTexts rest
  | .removed _ :: rest => rightTexts rest

/-- `true` iff nowhere in the list does a `removed` entry immediately precede
an `added` entry. -/
def noRemovedThenAdded : List DiffEntry → Bool
  | .removed _ :: .added _ :: _ => false
  | _ :: rest => noRemovedThenAdded rest
  | [] => true

/-- `true` iff the list's head entry is of type `added`. -/
def headIsAdded : List DiffEntry → Bool
  | .added _ :: _ => true
  | _ => false

/-- Reference definition for the spec's "length of a longest common
subsequence": the textbook recursion, independent of the source's DP table
and backtracking. -/
def lcsLen : List String → List String → Nat
  | [], _ => 0
  | _ :: _, [] => 0
  | a :: as, b :: bs =>
    if a = b then
      lcsLen as bs + 1
    else
      max (lcsLen as (b :: bs)) (lcsLen (a :: as) bs)
termination_by x y => x.length + y.length


/-- Modelled from the spec: the JSON value tree produced by the external
JSON library (`JSON.parse`).  Numbers carry their source lexeme verbatim
(the spec leaves numeric canonicalization open, §9); object properties are
an insertion-ordered list of key/value pairs. -/
inductive Json : Type where
  | null
  | bool (b : Bool)
  | num (lex : String)
  | str (s : String)
  | arr (elems : List Json)
  | obj (props : List (String × Json))
deriving Repr

/-- Decimal value of a digit string. -/
def digitsToNat (cs : List Char) : Nat :=
  cs.foldl (fun a c => a * 10 + (c.toNat - 48)) 0

/-- Modelled from the spec: ECMAScript array-index property keys, which JS
object property enumeration lists first in ascending numeric order — a
canonical decimal numeral (no leading zero except `"0"` itself) whose value
is at most `2^32 - 2`. -/
def isIndexKey (s : String) : Bool :=
  match s.data with
  | [] => false
  | c :: cs =>
    (c :: cs).all Char.isDigit && (decide (c ≠ '0') || cs.isEmpty) &&
      decide (digitsToNat (c :: cs) < 4294967295)

/-- Numeric value of a property key (used only on index keys). -/
def keyNat (s : String) : Nat := digitsToNat s.data

/-- Insert into a `le`-sorted list, before the first element not
`le`-below the new one (insertion sort step). -/
def orderedInsertBy {α : Type} (le : α → α → Bool) (x : α) :
    List α → List α
  | [] => [x]
  | y :: ys => if le x y then x :: y :: ys else y :: orderedInsertBy le x ys

/-- Insertion sort by a boolean comparison. -/
def insSortBy {α : Type} (le : α → α → Bool) : List α → List α
  | [] => []
  | x :: xs => orderedInsertBy le x (insSortBy le xs)

/-- Code-point comparison of two character sequences (the model of JS
string comparison, which compares UTF-16 code units). -/
def strLeB : List Char → List Char → Bool
  | [], _ => true
  | _ :: _, [] => false
  | p :: ps, q :: qs =>
    if p.toNat < q.toNat then true
    else if q.toNat < p.toNat then false
    else strLeB ps qs

/-- String comparison used by the JS default sort comparator. -/
def strLe (a b : String) : Bool := strLeB a.data b.data

/-- Numeric comparison of index keys. -/
def keyLeB (p q : String × Json) : Bool := Nat.ble (keyNat p.1) (keyNat q.1)

/-- Modelled from the spec: JS own-property enumeration order for the
property list of an object — array-index keys first in ascending numeric
order, then the remaining keys in insertion order.  `Object.keys` and
`JSON.stringify` both traverse properties in this order. -/
def jsOrderProps (props : List (String × Json)) : List (String × Json) :=
  insSortBy keyLeB (props.filter fun p => isIndexKey p.1) ++
    props.filter fun p => !isIndexKey p.1

/-- Modelled from the spec: JS property assignment `acc[key] = v` — update
in place when the key exists (keeping its position), otherwise append. -/
def jsSet (props : List (String × Json)) (k : String) (v : Json) :
    List (String × Json) :=
  if props.any fun p => p.1 = k then
    props.map fun p => if p.1 = k then (k, v) else p
  else
    props ++ [(k, v)]

/-- Lookup of a property value by key (JS `value[key]`). -/
def getVal (props : List (String × Json)) (k : String) : Option Json :=
  match props with
  | [] => none
  | p :: rest => if p.1 = k then some p.2 else getVal rest k

/-- Build an object property list from the textual member order, one JS
assignment per member (duplicate keys: last value wins, first position
kept — JS object literal/`JSON.parse` semantics). -/
def mkObj (members : List (String × Json)) : List (String × Json) :=
  members.foldl (fun acc m => jsSet acc m.1 m.2) []

/-- `Object.keys(value)`: the keys in JS enumeration order. -/
def objKeys (props : List (String × Json)) : List String :=
  (jsOrderProps props).map Prod.fst

/-- `Array.prototype.sort()` on a key array: lexicographic string order.
(JS compares UTF-16 code units; this model compares Unicode code points,
which coincides outside surrogate-ordering corner cases.) -/
def strSort (ks : List String) : List String :=
  insSortBy strLe ks

/-- The `Object.keys(value).sort().reduce((acc, key) => ..., {})` pipeline
of `sortKeys` (main.js lines 36–41), applied to a property list whose
values have already been recursively sorted: list the keys in JS
enumeration order, sort them, and rebuild a fresh object by one JS
assignment per key in sorted order. -/
def rebuildSorted (props : List (String × Json)) : List (String × Json) :=
  (strSort (objKeys props)).foldl
    (fun acc k => jsSet acc k ((getVal props k).getD .null)) []

mutual

/-- `sortKeys` (main.js lines 31–44): arrays map recursively, objects are
rebuilt with keys sorted ascending, scalars pass through.  The source
recurses via `acc[key] = sortKeys(value[key])` inside the reduce; since
each key of the object is visited exactly once, the recursion is hoisted
to the property values (`sortKeysProps`) before the rebuild, which
computes the same object. -/
def sortKeys : Json → Json
  | .null => .null
  | .bool b => .bool b
  | .num lex => .num lex
  | .str s => .str s
  | .arr elems => .arr (sortKeysList elems)
  | .obj props => .obj (rebuildSorted (sortKeysProps props))

/-- `value.map(sortKeys)` on array elements. -/
def sortKeysList : List Json → List Json
  | [] => []
  | x :: xs => sortKeys x :: sortKeysList xs

/-- `sortKeys` applied to each property value. -/
def sortKeysProps : List (String × Json) → List (String × Json)
  | [] => []
  | (k, v) :: ps => (k, sortKeys v) :: sortKeysProps ps

end


mutual

/-- Modelled from the spec: `JSON.stringify` traverses each object's own
properties in JS enumeration order; `jsEnum` applies that reordering to
every object level of a value, so that a plain in-order printer of the
result reproduces the stringify traversal. -/
def jsEnum : Json → Json
  | .null => .null
  | .bool b => .bool b
  | .num lex => .num lex
  | .str s => .str s
  | .arr elems => .arr (jsEnumList elems)
  | .obj props => .obj (jsOrderProps (jsEnumProps props))

/-- `jsEnum` on each array element. -/
def jsEnumList : List Json → List Json
  | [] => []
  | x :: xs => jsEnum x :: jsEnumList xs

/-- `jsEnum` on each property value. -/
def jsEnumProps : List (String × Json) → List (String × Json)
  | [] => []
  | (k, v) :: ps => (k, jsEnum v) :: jsEnumProps ps

end

/-- Lowercase hexadecimal digit. -/
def hexDigit (n : Nat) : Char :=
  if n < 10 then Char.ofNat (48 + n) else Char.ofNat (87 + n)

/-- Modelled from the spec: `JSON.stringify`'s escaping of one string
character — `"` and `\` get backslash escapes, the five named control
escapes are used where defined, other control characters become `\u00xx`,
everything else is emitted verbatim. -/
def escStrChar (c : Char) : List Char :=
  if c = '"' then ['\\', '"']
  else if c = '\\' then ['\\', '\\']
  else if c = '\x08' then ['\\', 'b']
  else if c = '\x0c' then ['\\', 'f']
  else if c = '\n' then ['\\', 'n']
  else if c = '\r' then ['\\', 'r']
  else if c = '\t' then ['\\', 't']
  else if c.toNat < 32 then
    ['\\', 'u', '0', '0', hexDigit (c.toNat / 16), hexDigit (c.toNat % 16)]
  else [c]

/-- A JSON string literal for `s`: quote, escaped characters, quote. -/
def quoteStr (s : String) : List Char :=
  '"' :: (s.data.map escStrChar).flatten ++ ['"']

/-- Indentation for nesting depth `d` with the fixed 2-space step. -/
def indentChars (d : Nat) : List Char := List.replicate (2 * d) ' '

mutual

/-- Modelled from the spec: the serialization of
`JSON.stringify(value, null, 2)` at nesting depth `d`, over a value whose
properties are already in enumeration order (see `jsEnum`). -/
def pr : Json → Nat → List Char
  | .null, _ => ['n', 'u', 'l', 'l']
  | .bool true, _ => ['t', 'r', 'u', 'e']
  | .bool false, _ => ['f', 'a', 'l', 's', 'e']
  | .num lex, _ => lex.data
  | .str s, _ => quoteStr s
  | .arr [], _ => ['[', ']']
  | .arr (x :: xs), d =>
    '[' :: '\n' ::
      (prArrItems (x :: xs) (d + 1) ++ '\n' :: indentChars d ++ [']'])
  | .obj [], _ => ['\x7b', '\x7d']
  | .obj (p :: ps), d =>
    '\x7b' :: '\n' ::
      (prObjItems (p :: ps) (d + 1) ++ '\n' :: indentChars d ++ ['\x7d'])

/-- Array items, each on its own indented line, separated by `",\n"`.
(The empty case is never reached from `pr`.) -/
def prArrItems : List Json → Nat → List Char
  | [], _ => []
  | [x], d => indentChars d ++ pr x d
  | x :: y :: ys, d =>
    indentChars d ++ pr x d ++ ',' :: '\n' :: prArrItems (y :: ys) d

/-- Object members `"key": value`, each on its own indented line,
separated by `",\n"`.  (The empty case is never reached from `pr`.) -/
def prObjItems : List (String × Json) → Nat → List Char
  | [], _ => []
  | [(k, v)], d => indentChars d ++ quoteStr k ++ ':' :: ' ' :: pr v d
  | (k, v) :: q :: qs, d =>
    indentChars d ++ quoteStr k ++ ':' :: ' ' :: pr v d ++
      ',' :: '\n' :: prObjItems (q :: qs) d

end

/-- Stringify as a string-valued function of the raw value: reorder
properties into enumeration order, then print. -/
def stringify (v : Json) : String := ⟨pr (jsEnum v) 0⟩


/-- JSON insignificant whitespace: space, tab, line feed, carriage return. -/
def isWsChar (c : Char) : Bool :=
  c = ' ' || c = '\t' || c = '\n' || c = '\r'

/-- Skip leading JSON whitespace. -/
def skipWs : List Char → List Char
  | c :: cs => if isWsChar c then skipWs cs else c :: cs
  | [] => []

/-- Split off a maximal run of leading decimal digits. -/
def digitSpan : List Char → List Char × List Char
  | c :: cs =>
    if c.isDigit then
      let (d, r) := digitSpan cs
      (c :: d, r)
    else ([], c :: cs)
  | [] => ([], [])

/-- Optional fraction part `.digits` of a JSON number; backtracks (consumes
nothing) when malformed, leaving rejection to the surrounding structure,
which is how `JSON.parse` also fails on such input. -/
def pFrac (cs : List Char) : List Char × List Char :=
  match cs with
  | '.' :: c :: t =>
    if c.isDigit then
      let (d, r) := digitSpan t
      ('.' :: c :: d, r)
    else ([], cs)
  | _ => ([], cs)

/-- Optional exponent part `[eE][+-]?digits` of a JSON number; backtracks
when malformed. -/
def pExp (cs : List Char) : List Char × List Char :=
  match cs with
  | e :: t =>
    if e = 'e' ∨ e = 'E' then
      match t with
      | s :: t2 =>
        if s = '+' ∨ s = '-' then
          match t2 with
          | c :: t3 =>
            if c.isDigit then
              let (d, r) := digitSpan t3
              (e :: s :: c :: d, r)
            else ([], cs)
          | [] => ([], cs)
        else if s.isDigit then
          let (d, r) := digitSpan t2
          (e :: s :: d, r)
        else ([], cs)
      | [] => ([], cs)
    else ([], cs)
  | [] => ([], cs)

/-- The integer part and what follows: `0` or a nonzero digit followed by
digits, then the optional fraction and exponent, assembled after the
already-consumed sign. -/
def pNumInt (cs : List Char) (sign : List Char) :
    Option (List Char × List Char) :=
  match cs with
  | [] => none
  | c :: t =>
    if c = '0' then
      let (f, r1) := pFrac t
      let (e, r2) := pExp r1
      some (sign ++ '0' :: (f ++ e), r2)
    else if c.isDigit then
      let (d, r) := digitSpan t
      let (f, r1) := pFrac r
      let (e, r2) := pExp r1
      some (sign ++ c :: (d ++ f ++ e), r2)
    else none

/-- Modelled from the spec: the number production of the external JSON
parser — `-? int frac? exp?` with `int` either `0` or a nonzero digit
followed by digits.  Returns the consumed lexeme and the rest. -/
def pNumber (cs : List Char) : Option (List Char × List Char) :=
  match cs with
  | [] => none
  | c :: t => if c = '-' then pNumInt t ['-'] else pNumInt (c :: t) []

/-- Hexadecimal digit value. -/
def hexVal (c : Char) : Option Nat :=
  if '0' ≤ c ∧ c ≤ '9' then some (c.toNat - 48)
  else if 'a' ≤ c ∧ c ≤ 'f' then some (c.toNat - 87)
  else if 'A' ≤ c ∧ c ≤ 'F' then some (c.toNat - 55)
  else none

/-- Prepend a character to the content of a string-body parse result. -/
def consStr (c : Char) :
    Option (List Char × List Char) → Option (List Char × List Char)
  | some (s, r) => some (c :: s, r)
  | none => none

/-- Modelled from the spec: the string production of the external JSON
parser, after the opening quote — content characters until the closing
quote, with the JSON escapes `\" \\ \/ \b \f \n \r \t \uXXXX` and raw
control characters rejected.  `\uXXXX` escapes denoting surrogate halves
are outside this model (Lean strings hold Unicode scalar values only). -/
def pStrBody : List Char → Option (List Char × List Char)
  | [] => none
  | '"' :: cs => some ([], cs)
  | '\\' :: cs =>
    match cs with
    | '"' :: r => consStr '"' (pStrBody r)
    | '\\' :: r => consStr '\\' (pStrBody r)
    | '/' :: r => consStr '/' (pStrBody r)
    | 'b' :: r => consStr '\x08' (pStrBody r)
    | 'f' :: r => consStr '\x0c' (pStrBody r)
    | 'n' :: r => consStr '\n' (pStrBody r)
    | 'r' :: r => consStr '\r' (pStrBody r)
    | 't' :: r => consStr '\t' (pStrBody r)
    | 'u' :: a :: b :: c :: d :: r =>
      match hexVal a, hexVal b, hexVal c, hexVal d with
      | some ha, some hb, some hc, some hd =>
        let n := ((ha * 16 + hb) * 16 + hc) * 16 + hd
        if n < 55296 ∨ 57344 ≤ n then consStr (Char.ofNat n) (pStrBody r)
        else none
      | _, _, _, _ => none
    | _ => none
  | c :: cs => if c.toNat < 32 then none else consStr c (pStrBody cs)

mutual

/-- Modelled from the spec: the external JSON parser's value production.
`fuel` bounds the recursion depth and loop steps; `jparse` supplies more
fuel than any input can consume.  The input must start directly with the
value (callers skip whitespace). -/
def pVal : Nat → List Char → Option (Json × List Char)
  | 0, _ => none
  | _ + 1, [] => none
  | fuel + 1, c :: cs =>
    if c = 'n' then
      match cs with
      | 'u' :: 'l' :: 'l' :: r => some (.null, r)
      | _ => none
    else if c = 't' then
      match cs with
      | 'r' :: 'u' :: 'e' :: r => some (.bool true, r)
      | _ => none
    else if c = 'f' then
      match cs with
      | 'a' :: 'l' :: 's' :: 'e' :: r => some (.bool false, r)
      | _ => none
    else if c = '"' then
      match pStrBody cs with
      | some (s, r) => some (.str ⟨s⟩, r)
      | none => none
    else if c = '[' then
      match skipWs cs with
      | ']' :: r => some (.arr [], r)
      | cs1 => pArrLoop fuel cs1 []
    else if c = '\x7b' then
      match skipWs cs with
      | '\x7d' :: r => some (.obj [], r)
      | cs1 => pObjLoop fuel cs1 []
    else
      match pNumber (c :: cs) with
      | some (lex, r) => some (.num ⟨lex⟩, r)
      | none => none

/-- Array elements after `[` (whitespace already skipped), one value then
`,` or `]`. -/
def pArrLoop : Nat → List Char → List Json → Option (Json × List Char)
  | 0, _, _ => none
  | fuel + 1, cs, acc =>
    match pVal fuel cs with
    | none => none
    | some (v, r) =>
      match skipWs r with
      | ',' :: r2 => pArrLoop fuel (skipWs r2) (acc ++ [v])
      | ']' :: r2 => some (.arr (acc ++ [v]), r2)
      | _ => none

/-- Object members after `{` (whitespace already skipped): a quoted key,
`:`, a value, then `,` or `}`.  Members are accumulated in textual order
and assembled with one JS assignment each (`mkObj`). -/
def pObjLoop : Nat → List Char → List (String × Json) →
    Option (Json × List Char)
  | 0, _, _ => none
  | fuel + 1, cs, acc =>
    match cs with
    | '"' :: cs1 =>
      match pStrBody cs1 with
      | none => none
      | some (k, r) =>
        match skipWs r with
        | ':' :: r2 =>
          match pVal fuel (skipWs r2) with
          | none => none
          | some (v, r3) =>
            match skipWs r3 with
            | ',' :: r4 => pObjLoop fuel (skipWs r4) (acc ++ [(⟨k⟩, v)])
            | '\x7d' :: r4 => some (.obj (mkObj (acc ++ [(⟨k⟩, v)])), r4)
            | _ => none
        | _ => none
    | _ => none

end

/-- Modelled from the spec: `JSON.parse` — skip leading whitespace, parse
one value, require only whitespace to remain. -/
def jparse (t : String) : Option Json :=
  match pVal (t.data.length + 1) (skipWs t.data) with
  | some (v, r) => if (skipWs r).isEmpty then some v else none
  | none => none

/-- `normalizedJson` (main.js lines 46–49): parse, sort keys recursively,
re-serialize with 2-space indentation.  `none` models the thrown
`SyntaxError` of `JSON.parse` on invalid input. -/
def normalizedJson (t : String) : Option String :=
  match jparse t with
  | some v => some (stringify (sortKeys v))
  | none => none



/-- One global single-character replace, `str.replace(/c/g, rep)`: every
occurrence of `c` becomes `rep`, all other characters stay. -/
def replaceAllChar (c : Char) (rep : List Char) (s : List Char) : List Char :=
  (s.map fun x => if x = c then rep else [x]).flatten

/-- `escapeHtml` (main.js lines 22–29): five sequential global replaces,
`&` first, then `<`, `>`, `"`, `'`. -/
def escapeHtml (s : String) : String :=
  ⟨replaceAllChar '\'' ['&', '#', '3', '9', ';']
    (replaceAllChar '"' ['&', 'q', 'u', 'o', 't', ';']
      (replaceAllChar '>' ['&', 'g', 't', ';']
        (replaceAllChar '<' ['&', 'l', 't', ';']
          (replaceAllChar '&' ['&', 'a', 'm', 'p', ';'] s.data))))⟩

/-- The `type` tag string of an entry. -/
def entryType : DiffEntry → String
  | .same _ _ => "same"
  | .added _ => "added"
  | .removed _ => "removed"
  | .changed _ _ => "changed"

/-- `entry.left || ''`: the stored left text (`''` for `added`). -/
def entryLeft : DiffEntry → String
  | .same l _ => l
  | .removed l => l
  | .changed l _ => l
  | .added _ => ""

/-- `entry.right || ''`: the stored right text (`''` for `removed`). -/
def entryRight : DiffEntry → String
  | .same _ r => r
  | .added r => r
  | .changed _ r => r
  | .removed _ => ""

/-- The header-only placeholder markup (main.js line 102). -/
def emptyDiffHeader : String :=
  "<div class=\"diff-header\">Left</div><div class=\"diff-header\">Right</div>"

/-- One diff cell (main.js lines 108–109): the `diff-empty` class when the
value is empty (falsy), and the escaped value (a single space when empty). -/
def diffCell (v : String) : String :=
  "<div class=\"diff-cell " ++ (if v = "" then "diff-empty" else "") ++
    "\">" ++ escapeHtml (if v = "" then " " else v) ++ "</div>"

/-- One diff row (main.js line 110). -/
def diffRow (e : DiffEntry) : String :=
  "<div class=\"diff-row diff-" ++ entryType e ++ "\">" ++
    diffCell (entryLeft e) ++ diffCell (entryRight e) ++ "</div>"

/-- `buildDiffHtml` (main.js lines 100–114): the header-only placeholder
for an empty diff, otherwise the headers followed by one row per entry. -/
def buildDiffHtml (entries : List DiffEntry) : String :=
  if entries.isEmpty then emptyDiffHeader
  else emptyDiffHeader ++ String.join (entries.map diffRow)

/-- One serialized entry of the unified-text projection
(main.js lines 116–131). -/
def serializeEntry : DiffEntry → String
  | .same l _ => "  " ++ l
  | .added r => "+ " ++ r
  | .removed l => "- " ++ l
  | .changed l r => "- " ++ l ++ "\n+ " ++ r

/-- `serializeDiff` (main.js lines 116–131): entries joined by newline. -/
def serializeDiff (entries : List DiffEntry) : String :=
  String.intercalate "\n" (entries.map serializeEntry)

/-- The compare-tab state read and written by `handleCompare`: the two
input text areas, the retained last-result variables (main.js lines
19–20), the rendered diff container, and the status banner. -/
structure AppState where
  compareLeft : String
  compareRight : String
  lastDiffText : String
  lastDiffHtml : String
  diffContainer : String
  statusMessage : String
  statusIsError : Bool
deriving Repr, DecidableEq

/-- Modelled from the spec: the `SyntaxError` thrown by the external JSON
parser is a function of the offending text alone (its message/position
carry no information about which caller or side supplied the text); the
model carries the offending text itself, the finest such function. -/
def parseErrorDetail (t : String) : String := t

/-- The catch branch of `handleCompare` (main.js lines 222–227): reset the
retained diff to empty strings, render the header-only placeholder, show
the error status; the input fields are left as they were. -/
def compareErrorState (st : AppState) (detail : String) : AppState :=
  { st with lastDiffText := "", lastDiffHtml := "",
            diffContainer := emptyDiffHeader,
            statusMessage := "Error: " ++ detail,
            statusIsError := true }

/-- `handleCompare` (main.js lines 209–228): normalize the left text, then
the right text (each may throw); only after both succeed are the input
fields replaced, the diff computed over the `'\n'`-split canonical texts,
and the result stored and rendered.  A throw from either `normalizedJson`
reaches the catch branch before any write. -/
def handleCompare (st : AppState) : AppState :=
  match normalizedJson st.compareLeft with
  | none => compareErrorState st (parseErrorDetail st.compareLeft)
  | some leftFormatted =>
    match normalizedJson st.compareRight with
    | none => compareErrorState st (parseErrorDetail st.compareRight)
    | some rightFormatted =>
      let diff := buildLineDiff (leftFormatted.splitOn "\n")
        (rightFormatted.splitOn "\n")
      { compareLeft := leftFormatted,
        compareRight := rightFormatted,
        lastDiffText := serializeDiff diff,
        lastDiffHtml := buildDiffHtml diff,
        diffContainer := buildDiffHtml diff,
        statusMessage := "✓ Comparison complete",
        statusIsError := false }

/-- Adjacent-pairs sortedness by a boolean comparison. -/
def pairwiseLeB {α : Type} (le : α → α → Bool) : List α → Bool
  | [] => true
  | [_] => true
  | a :: b :: t => le a b && pairwiseLeB le (b :: t)

/-- The order in which JS enumerates (and the canonical form prints) object
keys: array-index keys first, ascending numerically, then the remaining
keys ascending lexicographically. -/
def jsKeyLe (a b : String) : Bool :=
  if isIndexKey a then
    if isIndexKey b then Nat.ble (keyNat a) (keyNat b) else true
  else if isIndexKey b then false
  else strLe a b

mutual

/-- All object key lists of the value, in stored property order, are
sorted by `le`, at every nesting level. -/
def keysAscending (le : String → String → Bool) : Json → Bool
  | .null => true
  | .bool _ => true
  | .num _ => true
  | .str _ => true
  | .arr xs => keysAscendingList le xs
  | .obj props =>
    pairwiseLeB le (props.map Prod.fst) && keysAscendingProps le props

/-- `keysAscending` on each array element. -/
def keysAscendingList (le : String → String → Bool) : List Json → Bool
  | [] => true
  | x :: xs => keysAscending le x && keysAscendingList le xs

/-- `keysAscending` on each property value. -/
def keysAscendingProps (le : String → String → Bool) :
    List (String × Json) → Bool
  | [] => true
  | (_, v) :: ps => keysAscending le v && keysAscendingProps le ps

end

/-- No duplicates in a key list. -/
def keysNodup : List String → Bool
  | [] => true
  | k :: ks => !ks.contains k && keysNodup ks

mutual

/-- Every object in the value has pairwise-distinct keys (an invariant of
every value a JS program can hold, and of the parser's output). -/
def nodupKeys : Json → Bool
  | .null => true
  | .bool _ => true
  | .num _ => true
  | .str _ => true
  | .arr xs => nodupKeysList xs
  | .obj props => keysNodup (props.map Prod.fst) && nodupKeysProps props

/-- `nodupKeys` on each array element. -/
def nodupKeysList : List Json → Bool
  | [] => true
  | x :: xs => nodupKeys x && nodupKeysList xs

/-- `nodupKeys` on each property value. -/
def nodupKeysProps : List (String × Json) → Bool
  | [] => true
  | (_, v) :: ps => nodupKeys v && nodupKeysProps ps

end

mutual

/-- Spec-side definition (from the claim's words): two JSON values are the
same value tree up to object key ordering — scalars equal, arrays equal
pointwise, objects with the same number of properties and, for every key
on the left, the same key on the right with an equivalent value. -/
def jequiv : Json → Json → Bool
  | .null, .null => true
  | .bool a, .bool b => a = b
  | .num a, .num b => a = b
  | .str a, .str b => a = b
  | .arr xs, .arr ys => jequivList xs ys
  | .obj ps, .obj qs => ps.length = qs.length && jequivProps ps qs
  | _, _ => false

/-- Pointwise equivalence of array elements. -/
def jequivList : List Json → List Json → Bool
  | [], [] => true
  | x :: xs, y :: ys => jequiv x y && jequivList xs ys
  | _, _ => false

/-- Each left property's key is present on the right with an equivalent
value. -/
def jequivProps : List (String × Json) → List (String × Json) → Bool
  | [], _ => true
  | (k, v) :: ps, qs =>
    (match getVal qs k with
      | some w => jequiv v w
      | none => false) &&
    jequivProps ps qs

end

/-- Spec-side definition (from the claim's words): the per-character HTML
entity translation — each occurrence of `&`, `<`, `>`, `"`, `'` becomes
its entity, all other characters stay. -/
def escEntity (c : Char) : List Char :=
  if c = '&' then ['&', 'a', 'm', 'p', ';']
  else if c = '<' then ['&', 'l', 't', ';']
  else if c = '>' then ['&', 'g', 't', ';']
  else if c = '"' then ['&', 'q', 'u', 'o', 't', ';']
  else if c = '\'' then ['&', '#', '3', '9', ';']
  else [c]

/-- Spec-side definition: character-wise escaping of a whole string. -/
def escapeHtmlSpec (s : String) : String :=
  ⟨(s.data.map escEntity).flatten⟩

/-- Spec-side variant of `diffCell` using the character-wise escape. -/
def diffCellSpec (v : String) : String :=
  "<div class=\"diff-cell " ++ (if v = "" then "diff-empty" else "") ++
    "\">" ++ escapeHtmlSpec (if v = "" then " " else v) ++ "</div>"

/-- Spec-side variant of `diffRow` using the character-wise escape. -/
def diffRowSpec (e : DiffEntry) : String :=
  "<div class=\"diff-row diff-" ++ entryType e ++ "\">" ++
    diffCellSpec (entryLeft e) ++ diffCellSpec (entryRight e) ++ "</div>"

/-- Spec-side variant of `buildDiffHtml`: every embedded entry text is
escaped character-wise. -/
def buildDiffHtmlSpec (entries : List DiffEntry) : String :=
  if entries.isEmpty then emptyDiffHeader
  else emptyDiffHeader ++ String.join (entries.map diffRowSpec)



/-- Grammar shape of a JSON number lexeme: optional minus, integer part,
optional fraction, optional exponent. -/
def NumShape (lex : List Char) : Prop :=
  ∃ sign intp frac expp,
    lex = sign ++ intp ++ frac ++ expp ∧
    (sign = [] ∨ sign = ['-']) ∧
    (intp = ['0'] ∨ ∃ c ds, intp = c :: ds ∧ c.isDigit = true ∧
      c ≠ '0' ∧ ∀ x ∈ ds, x.isDigit = true) ∧
    (frac = [] ∨ ∃ c ds, frac = '.' :: c :: ds ∧ c.isDigit = true ∧
      ∀ x ∈ ds, x.isDigit = true) ∧
    (expp = [] ∨ ∃ e s c ds, expp = e :: (s ++ c :: ds) ∧
      (e = 'e' ∨ e = 'E') ∧ (s = [] ∨ s = ['+'] ∨ s = ['-']) ∧
      c.isDigit = true ∧ ∀ x ∈ ds, x.isDigit = true)

/-- The rest after a number lexeme may not begin with a character that
could extend the lexeme. -/
def NumDelim (rest : List Char) : Prop :=
  ∀ c t, rest = c :: t →
    c.isDigit = false ∧ c ≠ '.' ∧ c ≠ 'e' ∧ c ≠ 'E'

mutual

/-- Every number lexeme in the value tree has the JSON number grammar
shape (which is what the parser can ever produce). -/
def numOk : Json → Prop
  | .null => True
  | .bool _ => True
  | .num lex => NumShape lex.data
  | .str _ => True
  | .arr xs => numOkList xs
  | .obj ps => numOkProps ps

def numOkList : List Json → Prop
  | [] => True
  | x :: xs => numOk x ∧ numOkList xs

def numOkProps : List (String × Json) → Prop
  | [] => True
  | p :: ps => numOk p.2 ∧ numOkProps ps

end

mutual

/-- A fuel budget sufficient for `pVal` to parse the printed form of a
value. -/
def pfuel : Json → Nat
  | .arr (x :: xs) => 1 + pfuelArr (x :: xs)
  | .obj (p :: ps) => 1 + pfuelObj (p :: ps)
  | _ => 1

def pfuelArr : List Json → Nat
  | [] => 1
  | x :: xs => 1 + max (pfuel x) (pfuelArr xs)

def pfuelObj : List (String × Json) → Nat
  | [] => 1
  | p :: ps => 1 + max (pfuel p.2) (pfuelObj ps)

end

/-- The text that follows one printed array element: either the closing
line or a separator and the remaining elements, then the closing line. -/
def arrRest (xs : List Json) (d e : Nat) (z : List Char) : List Char :=
  match xs with
  | [] => '\n' :: indentChars e ++ ']' :: z
  | y :: ys =>
    ',' :: '\n' :: prArrItems (y :: ys) d ++
      '\n' :: indentChars e ++ ']' :: z

/-- The text that follows one printed object member. -/
def objRest (ps : List (String × Json)) (d e : Nat) (z : List Char) :
    List Char :=
  match ps with
  | [] => '\n' :: indentChars e ++ '\x7d' :: z
  | q :: qs =>
    ',' :: '\n' :: prObjItems (q :: qs) d ++
      '\n' :: indentChars e ++ '\x7d' :: z

theorem countSame_append (l₁ l₂ : List DiffEntry) :
    countSame (l₁ ++ l₂) = countSame l₁ + countSame l₂ := by
  induction l₁ with
  | nil => simp [countSame]
  | cons e rest ih => cases e <;> simp [countSame, ih] <;> try omega

theorem countSame_reverse (l : List DiffEntry) :
    countSame l.reverse = countSame l := by
  induction l with
  | nil => rfl
  | cons e rest ih =>
    cases e <;> simp [countSame, List.reverse_cons, countSame_append, ih]

theorem countSame_mergeDiff (l : List DiffEntry) :
    countSame (mergeDiff l) = countSame l := by
  induction l using mergeDiff.induct with
  | case1 a b rest ih => simp [mergeDiff, countSame, ih]
  | case2 e rest h ih => cases e <;> simp [mergeDiff, countSame, ih]
  | case3 => rfl

theorem dp_zero_left (L R : List String) (j : Nat) : dp L R 0 j = 0 := by
  rw [dp]

theorem dp_zero_right (L R : List String) (i : Nat) : dp L R i 0 = 0 := by
  cases i <;> rw [dp]

theorem countSame_backtrack (L R : List String) (i j : Nat) :
    countSame (backtrack L R i j) = dp L R i j := by
  induction i, j using backtrack.induct L R with
  | case1 => simp [backtrack, countSame, dp_zero_left]
  | case2 j ih => rw [backtrack]; simp [countSame, ih, dp_zero_left]
  | case3 i ih => rw [backtrack]; simp [countSame, ih, dp_zero_right]
  | case4 i j heq ih =>
    rw [backtrack, dp, if_pos heq, if_pos heq]
    simp [countSame, ih]
  | case5 i j hne hge ih =>
    rw [backtrack, dp, if_neg hne, if_neg hne, if_pos hge]
    simp [countSame, ih, Nat.max_eq_right hge]
  | case6 i j hne hge ih =>
    rw [backtrack, dp, if_neg hne, if_neg hne, if_neg hge]
    have hlt : dp L R (i + 1) j ≤ dp L R i (j + 1) :=
      Nat.le_of_lt (Nat.lt_of_not_le hge)
    simp [countSame, ih, Nat.max_eq_left hlt]


theorem leftTexts_append (l₁ l₂ : List DiffEntry) :
    leftTexts (l₁ ++ l₂) = leftTexts l₁ ++ leftTexts l₂ := by
  induction l₁ with
  | nil => simp [leftTexts]
  | cons e rest ih => cases e <;> simp [leftTexts, ih]

theorem rightTexts_append (l₁ l₂ : List DiffEntry) :
    rightTexts (l₁ ++ l₂) = rightTexts l₁ ++ rightTexts l₂ := by
  induction l₁ with
  | nil => simp [rightTexts]
  | cons e rest ih => cases e <;> simp [rightTexts, ih]

theorem leftTexts_reverse (l : List DiffEntry) :
    leftTexts l.reverse = (leftTexts l).reverse := by
  induction l with
  | nil => rfl
  | cons e rest ih =>
    cases e <;> simp [leftTexts, List.reverse_cons, leftTexts_append, ih]

theorem rightTexts_reverse (l : List DiffEntry) :
    rightTexts l.reverse = (rightTexts l).reverse := by
  induction l with
  | nil => rfl
  | cons e rest ih =>
    cases e <;> simp [rightTexts, List.reverse_cons, rightTexts_append, ih]

theorem leftTexts_mergeDiff (l : List DiffEntry) :
    leftTexts (mergeDiff l) = leftTexts l := by
  induction l using mergeDiff.induct with
  | case1 a b rest ih => simp [mergeDiff, leftTexts, ih]
  | case2 e rest h ih => cases e <;> simp [mergeDiff, leftTexts, ih]
  | case3 => rfl

theorem rightTexts_mergeDiff (l : List DiffEntry) :
    rightTexts (mergeDiff l) = rightTexts l := by
  induction l using mergeDiff.induct with
  | case1 a b rest ih => simp [mergeDiff, rightTexts, ih]
  | case2 e rest h ih => cases e <;> simp [mergeDiff, rightTexts, ih]
  | case3 => rfl

theorem take_succ_reverse {α : Type} (l : List α) (i : Nat) (h : i < l.length) :
    (l.take (i + 1)).reverse = l[i] :: (l.take i).reverse := by
  rw [List.take_succ, List.getElem?_eq_getElem h]
  simp

theorem getD_eq_getElem_of_lt {α : Type} (l : List α) (d : α) (i : Nat)
    (h : i < l.length) : l.getD i d = l[i] :=
  List.getD_eq_getElem l d h

theorem leftTexts_backtrack (L R : List String) (i j : Nat)
    (hi : i ≤ L.length) :
    leftTexts (backtrack L R i j) = (L.take i).reverse := by
  induction i, j using backtrack.induct L R with
  | case1 => simp [backtrack, leftTexts]
  | case2 j ih => rw [backtrack]; simp [leftTexts, ih hi]
  | case3 i ih =>
    rw [backtrack]
    have hlt : i < L.length := hi
    have hx : L[i]? = some L[i] := List.getElem?_eq_getElem hlt
    simp [leftTexts, ih (Nat.le_of_lt hlt), take_succ_reverse L i hlt, hx]
  | case4 i j heq ih =>
    rw [backtrack, if_pos heq]
    have hlt : i < L.length := hi
    have hx : L[i]? = some L[i] := List.getElem?_eq_getElem hlt
    simp [leftTexts, ih (Nat.le_of_lt hlt), take_succ_reverse L i hlt, hx]
  | case5 i j hne hge ih =>
    rw [backtrack, if_neg hne, if_pos hge]
    simp [leftTexts, ih hi]
  | case6 i j hne hge ih =>
    rw [backtrack, if_neg hne, if_neg hge]
    have hlt : i < L.length := hi
    have hx : L[i]? = some L[i] := List.getElem?_eq_getElem hlt
    simp [leftTexts, ih (Nat.le_of_lt hlt), take_succ_reverse L i hlt, hx]

theorem rightTexts_backtrack (L R : List String) (i j : Nat)
    (hj : j ≤ R.length) :
    rightTexts (backtrack L R i j) = (R.take j).reverse := by
  induction i, j using backtrack.induct L R with
  | case1 => simp [backtrack, rightTexts]
  | case2 j ih =>
    rw [backtrack]
    have hlt : j < R.length := hj
    have hx : R[j]? = some R[j] := List.getElem?_eq_getElem hlt
    simp [rightTexts, ih (Nat.le_of_lt hlt), take_succ_reverse R j hlt, hx]
  | case3 i ih => rw [backtrack]; simp [rightTexts, ih hj]
  | case4 i j heq ih =>
    rw [backtrack, if_pos heq]
    have hlt : j < R.length := hj
    have hx : R[j]? = some R[j] := List.getElem?_eq_getElem hlt
    simp [rightTexts, ih (Nat.le_of_lt hlt), take_succ_reverse R j hlt, hx]
  | case5 i j hne hge ih =>
    rw [backtrack, if_neg hne, if_pos hge]
    have hlt : j < R.length := hj
    have hx : R[j]? = some R[j] := List.getElem?_eq_getElem hlt
    simp [rightTexts, ih (Nat.le_of_lt hlt), take_succ_reverse R j hlt, hx]
  | case6 i j hne hge ih =>
    rw [backtrack, if_neg hne, if_neg hge]
    simp [rightTexts, ih hj]


theorem headIsAdded_mergeDiff (l : List DiffEntry) :
    headIsAdded (mergeDiff l) = headIsAdded l := by
  induction l using mergeDiff.induct with
  | case1 a b rest ih => simp [mergeDiff, headIsAdded]
  | case2 e rest h ih => cases e <;> simp [mergeDiff, headIsAdded]
  | case3 => rfl

theorem noRemovedThenAdded_cons_removed (s : String) (X : List DiffEntry)
    (h1 : headIsAdded X = false) (h2 : noRemovedThenAdded X = true) :
    noRemovedThenAdded (.removed s :: X) = true := by
  cases X with
  | nil => rfl
  | cons f t => cases f <;> simp_all [headIsAdded, noRemovedThenAdded]

theorem noRemovedThenAdded_mergeDiff (l : List DiffEntry) :
    noRemovedThenAdded (mergeDiff l) = true := by
  induction l using mergeDiff.induct with
  | case1 a b rest ih =>
    rw [mergeDiff]
    cases hm : mergeDiff rest with
    | nil => simp [noRemovedThenAdded]
    | cons e tl => cases e <;> simpa [noRemovedThenAdded, hm] using ih
  | case2 e rest h ih =>
    cases e with
    | same a b => simpa [mergeDiff, noRemovedThenAdded] using ih
    | added a => simpa [mergeDiff, noRemovedThenAdded] using ih
    | changed a b => simpa [mergeDiff, noRemovedThenAdded] using ih
    | removed a =>
      have hrest : headIsAdded rest = false := by
        cases rest with
        | nil => rfl
        | cons f t =>
          cases f with
          | added x => exact absurd (h a x t rfl rfl) (fun hh => hh)
          | same x y => rfl
          | removed x => rfl
          | changed x y => rfl
      have hmm : mergeDiff (.removed a :: rest) = .removed a :: mergeDiff rest := by
        cases rest with
        | nil => rfl
        | cons f t => cases f <;> simp_all [mergeDiff, headIsAdded]
      rw [hmm]
      exact noRemovedThenAdded_cons_removed a (mergeDiff rest)
        (by rw [headIsAdded_mergeDiff]; exact hrest) ih
  | case3 => rfl


theorem lcsLen_nil_right (A : List String) : lcsLen A [] = 0 := by
  cases A <;> rw [lcsLen]

theorem lcsLen_exists (A B : List String) :
    ∃ s : List String, s.Sublist A ∧ s.Sublist B ∧ s.length = lcsLen A B := by
  induction A, B using lcsLen.induct with
  | case1 B =>
    exact ⟨[], List.nil_sublist _, List.nil_sublist _, by simp [lcsLen]⟩
  | case2 a as =>
    exact ⟨[], List.nil_sublist _, List.nil_sublist _,
      by rw [lcsLen_nil_right]; rfl⟩
  | case3 as b bs ih =>
    obtain ⟨s, h1, h2, h3⟩ := ih
    refine ⟨b :: s, List.Sublist.cons₂ b h1, List.Sublist.cons₂ b h2, ?_⟩
    rw [lcsLen, if_pos rfl]
    simp [h3]
  | case4 a as b bs hne ih1 ih2 =>
    obtain ⟨s1, h11, h12, h13⟩ := ih1
    obtain ⟨s2, h21, h22, h23⟩ := ih2
    by_cases hc : lcsLen (a :: as) bs ≤ lcsLen as (b :: bs)
    · exact ⟨s1, h11.cons a, h12, by rw [lcsLen, if_neg hne]; omega⟩
    · exact ⟨s2, h21, h22.cons b, by rw [lcsLen, if_neg hne]; omega⟩

theorem lcsLen_bound (A B s : List String) (h1 : s.Sublist A)
    (h2 : s.Sublist B) : s.length ≤ lcsLen A B := by
  induction A, B using lcsLen.induct generalizing s with
  | case1 B =>
    obtain rfl := List.sublist_nil.mp h1
    simp
  | case2 a as =>
    obtain rfl := List.sublist_nil.mp h2
    simp
  | case3 as b bs ih =>
    cases s with
    | nil => simp
    | cons x s₁ =>
      have hs1 : s₁.Sublist as := by
        cases h1 with
        | cons _ h => exact (List.sublist_cons_self x s₁).trans h
        | cons₂ _ h => exact h
      have hs2 : s₁.Sublist bs := by
        cases h2 with
        | cons _ h => exact (List.sublist_cons_self x s₁).trans h
        | cons₂ _ h => exact h
      have hb := ih s₁ hs1 hs2
      rw [lcsLen, if_pos rfl]
      simpa using hb
  | case4 a as b bs hne ih1 ih2 =>
    rw [lcsLen, if_neg hne]
    cases h1 with
    | cons _ h =>
      exact le_trans (ih1 _ h h2) (Nat.le_max_left _ _)
    | cons₂ _ h =>
      cases h2 with
      | cons _ h2a =>
        exact le_trans (ih2 _ (List.Sublist.cons₂ a h) h2a) (Nat.le_max_right _ _)
      | cons₂ _ h2a => exact absurd rfl hne

theorem dp_eq_lcsLen (L R : List String) (i j : Nat) (hi : i ≤ L.length)
    (hj : j ≤ R.length) :
    dp L R i j = lcsLen (L.take i).reverse (R.take j).reverse := by
  induction i, j using dp.induct L R with
  | case1 j => rw [dp]; simp [lcsLen]
  | case2 i => rw [dp, List.take_zero, List.reverse_nil, lcsLen_nil_right]
  | case3 i j heq ih =>
    have hi2 : i < L.length := hi
    have hj2 : j < R.length := hj
    have hL : L.getD i "" = L[i] := List.getD_eq_getElem L "" hi2
    have hR : R.getD j "" = R[j] := List.getD_eq_getElem R "" hj2
    have heq2 : L[i] = R[j] := by rw [← hL, ← hR]; exact heq
    rw [dp, if_pos heq, take_succ_reverse L i hi2, take_succ_reverse R j hj2,
      lcsLen, if_pos heq2, ih (Nat.le_of_lt hi2) (Nat.le_of_lt hj2)]
  | case4 i j hne ih1 ih2 =>
    have hi2 : i < L.length := hi
    have hj2 : j < R.length := hj
    have hL : L.getD i "" = L[i] := List.getD_eq_getElem L "" hi2
    have hR : R.getD j "" = R[j] := List.getD_eq_getElem R "" hj2
    have hne2 : ¬ L[i] = R[j] := by rw [← hL, ← hR]; exact hne
    rw [dp, if_neg hne, take_succ_reverse L i hi2, take_succ_reverse R j hj2,
      lcsLen, if_neg hne2, ih1 (Nat.le_of_lt hi2) hj, ih2 hi (Nat.le_of_lt hj2),
      take_succ_reverse L i hi2, take_succ_reverse R j hj2]


/-- Claim C1: for every pair of line sequences `L` and `R`, the number of
`same` entries in the merged diff produced by `buildLineDiff L R` equals
`dp[m][n]` of the stated DP recurrence, which is the length of a longest
common subsequence of `L` and `R` (a common sublist of that length exists
and no common sublist is longer); merging never changes this count. -/
theorem buildLineDiff_countSame_eq_lcs (L R : List String) :
    countSame (buildLineDiff L R) = dp L R L.length R.length ∧
    (∃ s : List String, s.Sublist L ∧ s.Sublist R ∧
      s.length = countSame (buildLineDiff L R)) ∧
    ∀ t : List String, t.Sublist L → t.Sublist R →
      t.length ≤ countSame (buildLineDiff L R) := by
  have hdp : countSame (buildLineDiff L R) = dp L R L.length R.length := by
    rw [buildLineDiff, countSame_mergeDiff, countSame_reverse,
      countSame_backtrack]
  have hlcs : dp L R L.length R.length = lcsLen L.reverse R.reverse := by
    rw [dp_eq_lcsLen L R L.length R.length (le_refl _) (le_refl _)]
    simp
  refine ⟨hdp, ?_, ?_⟩
  · obtain ⟨s, hsL, hsR, hlen⟩ := lcsLen_exists L.reverse R.reverse
    refine ⟨s.reverse, ?_, ?_, ?_⟩
    · have := hsL.reverse
      rwa [List.reverse_reverse] at this
    · have := hsR.reverse
      rwa [List.reverse_reverse] at this
    · rw [List.length_reverse, hlen, hdp, hlcs]
  · intro t htL htR
    have hb := lcsLen_bound L.reverse R.reverse t.reverse htL.reverse htR.reverse
    rw [List.length_reverse] at hb
    rw [hdp, hlcs]
    exact hb

/-- Claim C2: concatenating in order the left-bearing texts of
`buildLineDiff L R` (`same.left`, `removed.left`, `changed.left`)
reconstructs `L` exactly, and the right-bearing texts (`same.right`,
`added.right`, `changed.right`) reconstruct `R` exactly. -/
theorem buildLineDiff_reconstruction (L R : List String) :
    leftTexts (buildLineDiff L R) = L ∧ rightTexts (buildLineDiff L R) = R := by
  constructor
  · rw [buildLineDiff, leftTexts_mergeDiff, leftTexts_reverse,
      leftTexts_backtrack L R L.length R.length (le_refl _)]
    simp
  · rw [buildLineDiff, rightTexts_mergeDiff, rightTexts_reverse,
      rightTexts_backtrack L R L.length R.length (le_refl _)]
    simp

/-- Claim C3: the merged sequence returned by `buildLineDiff L R` contains
no position where a `removed` entry is immediately followed by an `added`
entry. -/
theorem buildLineDiff_no_removed_then_added (L R : List String) :
    noRemovedThenAdded (buildLineDiff L R) = true :=
  noRemovedThenAdded_mergeDiff _

/-- Claim C4: on `leftLines = ["x","y"]`, `rightLines = ["p","q"]` the
backtracking with the `>=` tie-break produces the pre-merge alignment
`[removed "x", removed "y", added "p", added "q"]`, and the single-pair
merge yields exactly `[removed "x", changed "y" "p", added "q"]`. -/
theorem buildLineDiff_scenarioD :
    (backtrack ["x", "y"] ["p", "q"] 2 2).reverse =
      [.removed "x", .removed "y", .added "p", .added "q"] ∧
    buildLineDiff ["x", "y"] ["p", "q"] =
      [.removed "x", .changed "y" "p", .added "q"] := by
  constructor
  · simp [backtrack, dp]
  · simp [buildLineDiff, backtrack, dp, mergeDiff]


theorem buildLineDiff_countSame_eq_lcs_witness :
    (["a", "c"] : List String).Sublist ["a", "b", "c"] ∧
    (["a", "c"] : List String).Sublist ["a", "x", "c"] ∧
    (["a", "c"] : List String).length ≤
      countSame (buildLineDiff ["a", "b", "c"] ["a", "x", "c"]) :=
  ⟨by decide, by decide,
    (buildLineDiff_countSame_eq_lcs ["a", "b", "c"] ["a", "x", "c"]).2.2
      ["a", "c"] (by decide) (by decide)⟩

end JsonFormatter
namespace JsonFormatter

theorem replaceAllChar_cons (c : Char) (rep : List Char) (x : Char)
    (xs : List Char) :
    replaceAllChar c rep (x :: xs) =
      (if x = c then rep else [x]) ++ replaceAllChar c rep xs := by
  simp [replaceAllChar]

theorem replaceAllChar_append (c : Char) (rep : List Char)
    (xs ys : List Char) :
    replaceAllChar c rep (xs ++ ys) =
      replaceAllChar c rep xs ++ replaceAllChar c rep ys := by
  simp [replaceAllChar]

theorem escapeHtml_chain (cs : List Char) :
    replaceAllChar '\'' ['&', '#', '3', '9', ';']
      (replaceAllChar '"' ['&', 'q', 'u', 'o', 't', ';']
        (replaceAllChar '>' ['&', 'g', 't', ';']
          (replaceAllChar '<' ['&', 'l', 't', ';']
            (replaceAllChar '&' ['&', 'a', 'm', 'p', ';'] cs)))) =
      (cs.map escEntity).flatten := by
  induction cs with
  | nil => rfl
  | cons x xs ih =>
    rw [replaceAllChar_cons, replaceAllChar_append, replaceAllChar_append,
      replaceAllChar_append, replaceAllChar_append, ih]
    have hhead :
        replaceAllChar '\'' ['&', '#', '3', '9', ';']
          (replaceAllChar '"' ['&', 'q', 'u', 'o', 't', ';']
            (replaceAllChar '>' ['&', 'g', 't', ';']
              (replaceAllChar '<' ['&', 'l', 't', ';']
                (if x = '&' then ['&', 'a', 'm', 'p', ';'] else [x])))) =
          escEntity x := by
      by_cases h1 : x = '&'
      · subst h1; rfl
      by_cases h2 : x = '<'
      · subst h2; rfl
      by_cases h3 : x = '>'
      · subst h3; rfl
      by_cases h4 : x = '"'
      · subst h4; rfl
      by_cases h5 : x = '\''
      · subst h5; rfl
      simp [escEntity, replaceAllChar, h1, h2, h3, h4, h5]
    rw [hhead]
    simp

theorem escapeHtml_eq_spec (s : String) : escapeHtml s = escapeHtmlSpec s := by
  rw [escapeHtml, escapeHtmlSpec, escapeHtml_chain]

theorem diffCell_eq_spec (v : String) : diffCell v = diffCellSpec v := by
  rw [diffCell, diffCellSpec, escapeHtml_eq_spec]

theorem diffRow_eq_spec (e : DiffEntry) : diffRow e = diffRowSpec e := by
  rw [diffRow, diffRowSpec, diffCell_eq_spec, diffCell_eq_spec]

/-- Claim C9: in the display markup produced by `buildDiffHtml`, every
embedded entry text is escaped character-wise, so that each occurrence of
the characters `&`, `<`, `>`, `"` and `'` in an entry text appears as its
HTML entity in the output: `buildDiffHtml` equals the spec-side variant
built from the per-character entity translation, and `escapeHtml` is
exactly that translation. -/
theorem buildDiffHtml_escapes (entries : List DiffEntry) :
    buildDiffHtml entries = buildDiffHtmlSpec entries ∧
    ∀ s : String, escapeHtml s = escapeHtmlSpec s := by
  constructor
  · rw [buildDiffHtml, buildDiffHtmlSpec]
    have : entries.map diffRow = entries.map diffRowSpec :=
      List.map_congr_left fun e _ => diffRow_eq_spec e
    rw [this]
  · exact escapeHtml_eq_spec

end JsonFormatter
namespace JsonFormatter

theorem handleCompare_left_fail (st : AppState)
    (h : normalizedJson st.compareLeft = none) :
    handleCompare st = compareErrorState st (parseErrorDetail st.compareLeft) := by
  rw [handleCompare, h]

theorem handleCompare_right_fail (st : AppState) (lf : String)
    (hl : normalizedJson st.compareLeft = some lf)
    (h : normalizedJson st.compareRight = none) :
    handleCompare st = compareErrorState st (parseErrorDetail st.compareRight) := by
  rw [handleCompare, hl, h]

/-- Claim C7 (amended): when either side's text fails to parse, no diff is
computed — the handler lands in the catch branch, leaving the input fields
untouched and storing only the empty sentinel — and an error status
carrying the parser's detail is shown.  (The error does not identify which
side failed; see the counterexample.) -/
theorem handleCompare_parse_error_no_diff (st : AppState)
    (h : normalizedJson st.compareLeft = none ∨
      normalizedJson st.compareRight = none) :
    (∃ detail : String,
      handleCompare st = compareErrorState st detail) ∧
    (handleCompare st).lastDiffText = "" ∧
    (handleCompare st).lastDiffHtml = "" ∧
    (handleCompare st).diffContainer = emptyDiffHeader ∧
    (handleCompare st).statusIsError = true ∧
    (handleCompare st).compareLeft = st.compareLeft ∧
    (handleCompare st).compareRight = st.compareRight := by
  have herr : ∃ detail : String,
      handleCompare st = compareErrorState st detail := by
    cases hl : normalizedJson st.compareLeft with
    | none => exact ⟨_, handleCompare_left_fail st hl⟩
    | some lf =>
      cases hr : normalizedJson st.compareRight with
      | none => exact ⟨_, handleCompare_right_fail st lf hl hr⟩
      | some rf =>
        rcases h with h | h
        · rw [hl] at h; exact absurd h (by simp)
        · rw [hr] at h; exact absurd h (by simp)
  obtain ⟨detail, hd⟩ := herr
  rw [hd]
  exact ⟨⟨detail, rfl⟩, rfl, rfl, rfl, rfl, rfl, rfl⟩

/-- Claim C7, counterexample to "the error identifies which side failed":
two invocations — one whose left side is the bad text `"x"`, one whose
right side is — produce identical error reports (status message and flag),
so the report determines no side.  The parser's error is a function of the
failing text alone. -/
theorem handleCompare_error_side_indistinguishable :
    normalizedJson "x" = none ∧
    normalizedJson "1" = some "1" ∧
    (handleCompare ⟨"x", "1", "t", "h", "d", "m", false⟩).statusMessage =
      (handleCompare ⟨"1", "x", "t", "h", "d", "m", false⟩).statusMessage ∧
    (handleCompare ⟨"x", "1", "t", "h", "d", "m", false⟩).statusIsError = true ∧
    (handleCompare ⟨"1", "x", "t", "h", "d", "m", false⟩).statusIsError = true := by
  exact ⟨rfl, rfl, rfl, rfl, rfl⟩

theorem handleCompare_parse_error_no_diff_witness :
    (normalizedJson "x" = none ∨ normalizedJson "1" = none) ∧
    (handleCompare ⟨"x", "1", "t", "h", "d", "m", false⟩).lastDiffText = "" := by
  refine ⟨Or.inl rfl, ?_⟩
  exact (handleCompare_parse_error_no_diff ⟨"x", "1", "t", "h", "d", "m", false⟩
    (Or.inl rfl)).2.1

/-- Claim C8: every compare invocation that fails with a parse error resets
the stored last-result state — the retained diff text, the retained diff
markup, and the rendered container — to the empty sentinel (empty strings
and the header-only placeholder), whatever result a previous successful
compare had left there. -/
theorem handleCompare_error_resets_sentinel (st : AppState)
    (h : normalizedJson st.compareLeft = none ∨
      normalizedJson st.compareRight = none) :
    (handleCompare st).lastDiffText = "" ∧
    (handleCompare st).lastDiffHtml = "" ∧
    (handleCompare st).diffContainer = emptyDiffHeader := by
  obtain ⟨⟨d, hd⟩, -⟩ := handleCompare_parse_error_no_diff st h
  rw [hd]
  exact ⟨rfl, rfl, rfl⟩

theorem handleCompare_error_resets_sentinel_witness :
    (normalizedJson "nope" = none ∨ normalizedJson "2" = none) ∧
    ((handleCompare ⟨"nope", "2", "old text", "old html", "old render",
        "ok", false⟩).lastDiffText = "" ∧
      (handleCompare ⟨"nope", "2", "old text", "old html", "old render",
        "ok", false⟩).lastDiffHtml = "" ∧
      (handleCompare ⟨"nope", "2", "old text", "old html", "old render",
        "ok", false⟩).diffContainer = emptyDiffHeader) :=
  ⟨Or.inl rfl,
    handleCompare_error_resets_sentinel
      ⟨"nope", "2", "old text", "old html", "old render", "ok", false⟩
      (Or.inl rfl)⟩

/-- Claim C10: `handleCompare` is atomic in its inputs — both side texts
are normalized before any state write, so when the left fails, or the left
succeeds and the right fails, the state is exactly the error reset of the
prior state (neither input replaced by its canonical form); only when both
succeed are both inputs replaced wholesale by the canonical forms and the
result stored. -/
theorem handleCompare_atomic (st : AppState) :
    (normalizedJson st.compareLeft = none →
      handleCompare st = compareErrorState st (parseErrorDetail st.compareLeft)) ∧
    (∀ lf : String, normalizedJson st.compareLeft = some lf →
      normalizedJson st.compareRight = none →
      handleCompare st = compareErrorState st (parseErrorDetail st.compareRight)) ∧
    (∀ lf rf : String, normalizedJson st.compareLeft = some lf →
      normalizedJson st.compareRight = some rf →
      handleCompare st =
        { compareLeft := lf,
          compareRight := rf,
          lastDiffText := serializeDiff
            (buildLineDiff (lf.splitOn "\n") (rf.splitOn "\n")),
          lastDiffHtml := buildDiffHtml
            (buildLineDiff (lf.splitOn "\n") (rf.splitOn "\n")),
          diffContainer := buildDiffHtml
            (buildLineDiff (lf.splitOn "\n") (rf.splitOn "\n")),
          statusMessage := "✓ Comparison complete",
          statusIsError := false }) := by
  refine ⟨fun h => handleCompare_left_fail st h,
    fun lf hl hr => handleCompare_right_fail st lf hl hr,
    fun lf rf hl hr => ?_⟩
  rw [handleCompare, hl, hr]

theorem handleCompare_atomic_witness :
    normalizedJson "2" = some "2" ∧ normalizedJson "nope" = none ∧
    handleCompare ⟨"2", "nope", "t", "h", "d", "m", false⟩ =
      compareErrorState ⟨"2", "nope", "t", "h", "d", "m", false⟩
        (parseErrorDetail "nope") :=
  ⟨rfl, rfl,
    (handleCompare_atomic ⟨"2", "nope", "t", "h", "d", "m", false⟩).2.1
      "2" rfl rfl⟩

end JsonFormatter
namespace JsonFormatter

theorem orderedInsertBy_perm {α : Type} (le : α → α → Bool) (x : α)
    (l : List α) : (orderedInsertBy le x l).Perm (x :: l) := by
  induction l with
  | nil => exact List.Perm.refl _
  | cons y ys ih =>
    rw [orderedInsertBy]
    by_cases h : le x y
    · rw [if_pos h]
    · rw [if_neg h]
      exact (ih.cons y).trans (List.Perm.swap x y ys)

theorem insSortBy_perm {α : Type} (le : α → α → Bool) (l : List α) :
    (insSortBy le l).Perm l := by
  induction l with
  | nil => exact List.Perm.refl _
  | cons x xs ih =>
    rw [insSortBy]
    exact (orderedInsertBy_perm le x (insSortBy le xs)).trans (ih.cons x)

theorem orderedInsertBy_pairwise {α : Type} (le : α → α → Bool)
    (htot : ∀ a b, le a b = true ∨ le b a = true)
    (htrans : ∀ a b c, le a b = true → le b c = true → le a c = true)
    (x : α) (l : List α)
    (hl : l.Pairwise fun a b => le a b = true) :
    (orderedInsertBy le x l).Pairwise fun a b => le a b = true := by
  induction l with
  | nil => simp [orderedInsertBy]
  | cons y ys ih =>
    rw [orderedInsertBy]
    rcases List.pairwise_cons.mp hl with ⟨hy, hys⟩
    by_cases h : le x y
    · rw [if_pos h]
      refine List.pairwise_cons.mpr ⟨?_, hl⟩
      intro z hz
      rcases hz with _ | hz
      · exact h
      · rename_i hz
        exact htrans x y z h (hy z hz)
    · rw [if_neg h]
      refine List.pairwise_cons.mpr ⟨?_, ih hys⟩
      intro z hz
      have hperm := orderedInsertBy_perm le x ys
      have hz2 := hperm.mem_iff.mp hz
      rcases List.mem_cons.mp hz2 with rfl | hz3
      · rcases htot z y with hc | hc
        · exact absurd hc h
        · exact hc
      · exact hy z hz3

end JsonFormatter
namespace JsonFormatter

theorem insSortBy_pairwise {α : Type} (le : α → α → Bool)
    (htot : ∀ a b, le a b = true ∨ le b a = true)
    (htrans : ∀ a b c, le a b = true → le b c = true → le a c = true)
    (l : List α) :
    (insSortBy le l).Pairwise fun a b => le a b = true := by
  induction l with
  | nil => simp [insSortBy]
  | cons x xs ih =>
    rw [insSortBy]
    exact orderedInsertBy_pairwise le htot htrans x _ ih

theorem pairwiseLeB_of_pairwise {α : Type} (le : α → α → Bool)
    (l : List α) (h : l.Pairwise fun a b => le a b = true) :
    pairwiseLeB le l = true := by
  induction l with
  | nil => rfl
  | cons a t ih =>
    cases t with
    | nil => rfl
    | cons b t2 =>
      rcases List.pairwise_cons.mp h with ⟨ha, ht⟩
      rw [pairwiseLeB]
      simp only [Bool.and_eq_true]
      exact ⟨ha b (List.mem_cons_self b t2), ih ht⟩

theorem sorted_perm_eq {α : Type} (le : α → α → Bool)
    (hanti : ∀ a b, le a b = true → le b a = true → a = b) :
    ∀ (l₁ l₂ : List α), l₁.Perm l₂ →
      l₁.Pairwise (fun a b => le a b = true) →
      l₂.Pairwise (fun a b => le a b = true) → l₁ = l₂ := by
  intro l₁
  induction l₁ with
  | nil => intro l₂ hp _ _; simpa using hp.nil_eq
  | cons a t ih =>
    intro l₂ hp h1 h2
    cases l₂ with
    | nil => exact absurd hp.symm (by simp)
    | cons b t2 =>
      rcases List.pairwise_cons.mp h1 with ⟨ha, ht⟩
      rcases List.pairwise_cons.mp h2 with ⟨hb, ht2⟩
      have hab : a = b := by
        have hmem_a : a ∈ b :: t2 := hp.mem_iff.mp (List.mem_cons_self a t)
        have hmem_b : b ∈ a :: t := hp.mem_iff.mpr (List.mem_cons_self b t2)
        rcases List.mem_cons.mp hmem_a with rfl | ha2
        · rfl
        · rcases List.mem_cons.mp hmem_b with rfl | hb2
          · rfl
          · exact hanti a b (ha b hb2) (hb a ha2)
      subst hab
      have := hp.cons_inv
      rw [ih t2 this ht ht2]

end JsonFormatter
namespace JsonFormatter

theorem strLeB_total (as bs : List Char) :
    strLeB as bs = true ∨ strLeB bs as = true := by
  induction as generalizing bs with
  | nil => left; rfl
  | cons a as ih =>
    cases bs with
    | nil => right; rfl
    | cons b bs =>
      rw [strLeB, strLeB]
      rcases Nat.lt_trichotomy a.toNat b.toNat with h | h | h
      · left; simp [h]
      · have h2 : ¬ a.toNat < b.toNat := by omega
        have h3 : ¬ b.toNat < a.toNat := by omega
        rcases ih bs with hc | hc
        · left; simp [h2, h3, hc]
        · right; simp [h2, h3, hc]
      · right; simp [h]

theorem strLeB_trans (as bs cs : List Char) (h1 : strLeB as bs = true)
    (h2 : strLeB bs cs = true) : strLeB as cs = true := by
  induction as generalizing bs cs with
  | nil => rfl
  | cons a as ih =>
    cases bs with
    | nil => exact absurd h1 (by rw [strLeB]; simp)
    | cons b bs =>
      cases cs with
      | nil => exact absurd h2 (by rw [strLeB]; simp)
      | cons c cs =>
        rw [strLeB] at h1 h2 ⊢
        by_cases hab : a.toNat < b.toNat
        · by_cases hbc : b.toNat < c.toNat
          · have hac : a.toNat < c.toNat := by omega
            simp [hac]
          · by_cases hcb : c.toNat < b.toNat
            · rw [if_neg hbc, if_pos hcb] at h2
              exact absurd h2 (by simp)
            · have hac : a.toNat < c.toNat := by omega
              simp [hac]
        · by_cases hba : b.toNat < a.toNat
          · rw [if_neg hab, if_pos hba] at h1
            exact absurd h1 (by simp)
          · by_cases hbc : b.toNat < c.toNat
            · have hac : a.toNat < c.toNat := by omega
              simp [hac]
            · by_cases hcb : c.toNat < b.toNat
              · rw [if_neg hbc, if_pos hcb] at h2
                exact absurd h2 (by simp)
              · rw [if_neg hab, if_neg hba] at h1
                rw [if_neg hbc, if_neg hcb] at h2
                have hnac : ¬ a.toNat < c.toNat := by omega
                have hnca : ¬ c.toNat < a.toNat := by omega
                rw [if_neg hnac, if_neg hnca]
                exact ih bs cs h1 h2

theorem char_toNat_inj (a b : Char) (h : a.toNat = b.toNat) : a = b := by
  apply Char.ext
  have h2 : a.val.toNat = b.val.toNat := h
  exact UInt32.ext h2

theorem strLeB_antisymm (as bs : List Char) (h1 : strLeB as bs = true)
    (h2 : strLeB bs as = true) : as = bs := by
  induction as generalizing bs with
  | nil =>
    cases bs with
    | nil => rfl
    | cons b bs => exact absurd h2 (by rw [strLeB]; simp)
  | cons a as ih =>
    cases bs with
    | nil => exact absurd h1 (by rw [strLeB]; simp)
    | cons b bs =>
      rw [strLeB] at h1 h2
      by_cases hab : a.toNat < b.toNat
      · have hnba : ¬ b.toNat < a.toNat := by omega
        rw [if_neg hnba, if_pos hab] at h2
        exact absurd h2 (by simp)
      · by_cases hba : b.toNat < a.toNat
        · rw [if_neg hab, if_pos hba] at h1
          exact absurd h1 (by simp)
        · rw [if_neg hab, if_neg hba] at h1
          rw [if_neg hba, if_neg hab] at h2
          have heq : a = b := char_toNat_inj a b (by omega)
          rw [heq, ih bs h1 h2]

theorem strLe_total (a b : String) : strLe a b = true ∨ strLe b a = true :=
  strLeB_total a.data b.data

theorem strLe_trans (a b c : String) (h1 : strLe a b = true)
    (h2 : strLe b c = true) : strLe a c = true :=
  strLeB_trans a.data b.data c.data h1 h2

theorem strLe_antisymm (a b : String) (h1 : strLe a b = true)
    (h2 : strLe b a = true) : a = b := by
  obtain ⟨as⟩ := a
  obtain ⟨bs⟩ := b
  have hd := strLeB_antisymm as bs h1 h2
  rw [hd]

theorem keyLeB_total (p q : String × Json) :
    keyLeB p q = true ∨ keyLeB q p = true := by
  rw [keyLeB, keyLeB]
  rcases Nat.le_total (keyNat p.1) (keyNat q.1) with h | h
  · left; exact Nat.ble_eq.mpr h
  · right; exact Nat.ble_eq.mpr h

theorem keyLeB_trans (p q r : String × Json) (h1 : keyLeB p q = true)
    (h2 : keyLeB q r = true) : keyLeB p r = true := by
  rw [keyLeB] at h1 h2 ⊢
  have := Nat.ble_eq.mp h1
  have := Nat.ble_eq.mp h2
  exact Nat.ble_eq.mpr (by omega)

end JsonFormatter
namespace JsonFormatter

theorem keysNodup_iff_nodup (ks : List String) :
    keysNodup ks = true ↔ ks.Nodup := by
  induction ks with
  | nil => simp [keysNodup]
  | cons k t ih =>
    rw [keysNodup]
    simp [List.nodup_cons, ih, List.elem_iff]

theorem jsOrderProps_perm (props : List (String × Json)) :
    (jsOrderProps props).Perm props := by
  rw [jsOrderProps]
  have h1 := insSortBy_perm keyLeB (props.filter fun p => isIndexKey p.1)
  have h2 := List.filter_append_perm (fun p => isIndexKey p.1) props
  exact (h1.append_right _).trans h2

theorem strSort_perm (ks : List String) : (strSort ks).Perm ks :=
  insSortBy_perm strLe ks

theorem strSort_pairwise (ks : List String) :
    (strSort ks).Pairwise fun a b => strLe a b = true :=
  insSortBy_pairwise strLe strLe_total strLe_trans ks

theorem objKeys_perm (props : List (String × Json)) :
    (objKeys props).Perm (props.map Prod.fst) :=
  (jsOrderProps_perm props).map Prod.fst

theorem getVal_mem (props : List (String × Json)) (k : String) (v : Json)
    (h : getVal props k = some v) : (k, v) ∈ props := by
  induction props with
  | nil => exact absurd h (by rw [getVal]; simp)
  | cons p rest ih =>
    obtain ⟨a, b⟩ := p
    rw [getVal] at h
    by_cases hp : a = k
    · rw [if_pos hp] at h
      simp at h
      rw [← hp, ← h]
      exact List.mem_cons_self _ _
    · rw [if_neg hp] at h
      exact List.mem_cons_of_mem _ (ih h)

theorem mem_getVal (props : List (String × Json)) (k : String) (v : Json)
    (hnd : (props.map Prod.fst).Nodup)
    (h : (k, v) ∈ props) : getVal props k = some v := by
  induction props with
  | nil => exact absurd h (by simp)
  | cons p rest ih =>
    rw [List.map_cons, List.nodup_cons] at hnd
    rcases List.mem_cons.mp h with rfl | h2
    · rw [getVal, if_pos rfl]
    · rw [getVal]
      by_cases hp : p.1 = k
      · exact absurd (hp ▸ List.mem_map.mpr ⟨(k, v), h2, rfl⟩) hnd.1
      · rw [if_neg hp]
        exact ih hnd.2 h2

theorem jsSet_fresh (props : List (String × Json)) (k : String) (v : Json)
    (h : ∀ p ∈ props, p.1 ≠ k) : jsSet props k v = props ++ [(k, v)] := by
  rw [jsSet, if_neg]
  simp only [List.any_eq_true, not_exists]
  intro p
  intro hc
  rcases hc with ⟨hp, he⟩
  exact h p hp (by simpa using he)

theorem foldl_jsSet_map (f : String → Json) (ks : List String)
    (acc : List (String × Json))
    (hdisj : ∀ p ∈ acc, ∀ k ∈ ks, p.1 ≠ k) (hnd : ks.Nodup) :
    ks.foldl (fun acc k => jsSet acc k (f k)) acc =
      acc ++ ks.map fun k => (k, f k) := by
  induction ks generalizing acc with
  | nil => simp
  | cons k t ih =>
    rw [List.foldl_cons, jsSet_fresh acc k (f k)
      (fun p hp => hdisj p hp k (List.mem_cons_self k t))]
    rw [ih (acc ++ [(k, f k)])]
    · simp
    · intro p hp k2 hk2
      rcases List.mem_append.mp hp with hp2 | hp2
      · exact hdisj p hp2 k2 (List.mem_cons_of_mem k hk2)
      · simp only [List.mem_singleton] at hp2
        subst hp2
        simp only [ne_eq]
        rcases List.nodup_cons.mp hnd with ⟨hknot, _⟩
        intro hc
        rw [hc] at hknot
        exact hknot hk2
    · exact (List.nodup_cons.mp hnd).2

theorem rebuildSorted_eq_map (props : List (String × Json))
    (hnd : keysNodup (props.map Prod.fst) = true) :
    rebuildSorted props =
      (strSort (objKeys props)).map
        fun k => (k, (getVal props k).getD .null) := by
  rw [rebuildSorted]
  have hperm : (strSort (objKeys props)).Perm (props.map Prod.fst) :=
    (strSort_perm _).trans (objKeys_perm props)
  have hnd2 : (strSort (objKeys props)).Nodup :=
    hperm.nodup_iff.mpr ((keysNodup_iff_nodup _).mp hnd)
  exact foldl_jsSet_map _ _ [] (by simp) hnd2

end JsonFormatter
namespace JsonFormatter

theorem sortKeysProps_keys (ps : List (String × Json)) :
    (sortKeysProps ps).map Prod.fst = ps.map Prod.fst := by
  induction ps with
  | nil => rfl
  | cons p rest ih =>
    obtain ⟨k, v⟩ := p
    rw [sortKeysProps, List.map_cons, List.map_cons, ih]

theorem getVal_sortKeysProps (ps : List (String × Json)) (k : String) :
    getVal (sortKeysProps ps) k = (getVal ps k).map sortKeys := by
  induction ps with
  | nil => rfl
  | cons p rest ih =>
    obtain ⟨a, b⟩ := p
    rw [sortKeysProps, getVal, getVal]
    by_cases hp : a = k
    · rw [if_pos hp, if_pos hp]
      rfl
    · rw [if_neg hp, if_neg hp]
      exact ih

theorem jequivProps_forall (ps qs : List (String × Json))
    (h : jequivProps ps qs = true) :
    ∀ k x, (k, x) ∈ ps → ∃ y, getVal qs k = some y ∧ jequiv x y = true := by
  induction ps with
  | nil => intro k x hx; exact absurd hx (by simp)
  | cons p rest ih =>
    obtain ⟨a, b⟩ := p
    rw [jequivProps] at h
    simp only [Bool.and_eq_true] at h
    intro k x hx
    rcases List.mem_cons.mp hx with he | h2
    · obtain ⟨h3, h4⟩ := Prod.mk.inj he
      subst h3
      subst h4
      cases hg : getVal qs k with
      | none => rw [hg] at h; exact absurd h.1 (by simp)
      | some y =>
        rw [hg] at h
        exact ⟨y, rfl, h.1⟩
    · exact ih h.2 k x h2

theorem nodupKeysProps_mem (ps : List (String × Json)) (k : String) (v : Json)
    (h : nodupKeysProps ps = true) (hm : (k, v) ∈ ps) : nodupKeys v = true := by
  induction ps with
  | nil => exact absurd hm (by simp)
  | cons p rest ih =>
    obtain ⟨a, b⟩ := p
    rw [nodupKeysProps] at h
    simp only [Bool.and_eq_true] at h
    rcases List.mem_cons.mp hm with he | h2
    · obtain ⟨h3, h4⟩ := Prod.mk.inj he
      subst h4
      exact h.1
    · exact ih h.2 h2

theorem nodupKeysList_mem (xs : List Json) (x : Json)
    (h : nodupKeysList xs = true) (hm : x ∈ xs) : nodupKeys x = true := by
  induction xs with
  | nil => exact absurd hm (by simp)
  | cons y rest ih =>
    rw [nodupKeysList] at h
    simp only [Bool.and_eq_true] at h
    rcases List.mem_cons.mp hm with rfl | h2
    · exact h.1
    · exact ih h.2 h2

theorem sizeOf_getVal_lt (ps : List (String × Json)) (k : String) (v : Json)
    (h : (k, v) ∈ ps) : sizeOf v < sizeOf (Json.obj ps) := by
  have h1 := List.sizeOf_lt_of_mem h
  have h2 : sizeOf (k, v) = 1 + sizeOf k + sizeOf v := by simp
  simp only [Json.obj.sizeOf_spec]
  omega

theorem sizeOf_mem_lt (xs : List Json) (x : Json) (h : x ∈ xs) :
    sizeOf x < sizeOf (Json.arr xs) := by
  have h1 := List.sizeOf_lt_of_mem h
  simp only [Json.arr.sizeOf_spec]
  omega

end JsonFormatter
namespace JsonFormatter

theorem sortKeysList_congr (m : Nat)
    (rec : ∀ x y : Json, sizeOf x ≤ m → nodupKeys x = true →
      nodupKeys y = true → jequiv x y = true → sortKeys x = sortKeys y) :
    ∀ xs ys : List Json, sizeOf (Json.arr xs) ≤ m + 1 →
      nodupKeysList xs = true → nodupKeysList ys = true →
      jequivList xs ys = true → sortKeysList xs = sortKeysList ys := by
  intro xs
  induction xs with
  | nil =>
    intro ys _ _ _ he
    cases ys with
    | nil => rfl
    | cons y t => exact Bool.noConfusion he
  | cons x t ihl =>
    intro ys hs hv hw he
    cases ys with
    | nil => exact Bool.noConfusion he
    | cons y t2 =>
      rw [jequivList] at he
      simp only [Bool.and_eq_true] at he
      rw [nodupKeysList] at hv hw
      simp only [Bool.and_eq_true] at hv hw
      rw [sortKeysList, sortKeysList]
      have hsx : sizeOf x ≤ m := by
        have := sizeOf_mem_lt (x :: t) x (List.mem_cons_self x t)
        omega
      rw [rec x y hsx hv.1 hw.1 he.1]
      congr 1
      have hst : sizeOf (Json.arr t) ≤ m + 1 := by
        simp only [Json.arr.sizeOf_spec, List.cons.sizeOf_spec] at hs ⊢
        omega
      exact ihl t2 hst hv.2 hw.2 he.2

theorem sortKeys_jequiv_aux :
    ∀ (n : Nat) (v w : Json), sizeOf v ≤ n → nodupKeys v = true →
      nodupKeys w = true → jequiv v w = true → sortKeys v = sortKeys w := by
  intro n
  induction n with
  | zero =>
    intro v w hs
    exact absurd hs (by cases v <;> simp)
  | succ m ih =>
    intro v w hs hv hw he
    cases v with
    | null => cases w <;> simp_all [jequiv]
    | bool a =>
      cases w <;> simp_all [jequiv]
    | num a =>
      cases w <;> simp_all [jequiv]
    | str a =>
      cases w <;> simp_all [jequiv]
    | arr xs =>
      cases w with
      | arr ys =>
        rw [jequiv] at he
        rw [nodupKeys] at hv hw
        rw [sortKeys, sortKeys]
        congr 1
        exact sortKeysList_congr m ih xs ys hs hv hw he
      | null => simp_all [jequiv]
      | bool b => simp_all [jequiv]
      | num b => simp_all [jequiv]
      | str b => simp_all [jequiv]
      | obj qs => simp_all [jequiv]
    | obj ps =>
      cases w with
      | obj qs =>
        rw [jequiv] at he
        simp only [Bool.and_eq_true, decide_eq_true_eq] at he
        rw [nodupKeys] at hv hw
        simp only [Bool.and_eq_true] at hv hw
        rw [sortKeys, sortKeys]
        congr 1
        have hnd1 : keysNodup ((sortKeysProps ps).map Prod.fst) = true := by
          rw [sortKeysProps_keys]; exact hv.1
        have hnd2 : keysNodup ((sortKeysProps qs).map Prod.fst) = true := by
          rw [sortKeysProps_keys]; exact hw.1
        rw [rebuildSorted_eq_map _ hnd1, rebuildSorted_eq_map _ hnd2]
        have hsub : (ps.map Prod.fst) ⊆ (qs.map Prod.fst) := by
          intro k hk
          obtain ⟨⟨a, x⟩, hmem, hfst⟩ := List.mem_map.mp hk
          simp only at hfst
          subst hfst
          obtain ⟨y, hy, _⟩ := jequivProps_forall ps qs he.2 a x hmem
          exact List.mem_map.mpr ⟨(a, y), getVal_mem qs a y hy, rfl⟩
        have hperm : (ps.map Prod.fst).Perm (qs.map Prod.fst) :=
          (List.subperm_of_subset ((keysNodup_iff_nodup _).mp hv.1)
            hsub).perm_of_length_le (by simp [he.1])
        have hSperm : (strSort (objKeys (sortKeysProps ps))).Perm
            (strSort (objKeys (sortKeysProps qs))) := by
          refine ((strSort_perm _).trans ?_).trans (strSort_perm _).symm
          refine ((objKeys_perm _).trans ?_).trans (objKeys_perm _).symm
          rw [sortKeysProps_keys, sortKeysProps_keys]
          exact hperm
        have hS : strSort (objKeys (sortKeysProps ps)) =
            strSort (objKeys (sortKeysProps qs)) :=
          sorted_perm_eq strLe strLe_antisymm _ _ hSperm
            (strSort_pairwise _) (strSort_pairwise _)
        rw [hS]
        apply List.map_congr_left
        intro k hkS
        have hkq : k ∈ qs.map Prod.fst := by
          have := (strSort_perm _).subset hkS
          have := (objKeys_perm _).subset this
          rwa [sortKeysProps_keys] at this
        have hkp : k ∈ ps.map Prod.fst := hperm.mem_iff.mpr hkq
        obtain ⟨⟨a, x⟩, hmem, hfst⟩ := List.mem_map.mp hkp
        simp only at hfst
        subst hfst
        obtain ⟨y, hy, hexy⟩ := jequivProps_forall ps qs he.2 a x hmem
        have hgp : getVal ps a = some x :=
          mem_getVal ps a x ((keysNodup_iff_nodup _).mp hv.1) hmem
        have hgp2 : getVal (sortKeysProps ps) a = some (sortKeys x) := by
          rw [getVal_sortKeysProps, hgp]
          rfl
        have hgq2 : getVal (sortKeysProps qs) a = some (sortKeys y) := by
          rw [getVal_sortKeysProps, hy]
          rfl
        have hsx : sizeOf x ≤ m := by
          have := sizeOf_getVal_lt ps a x hmem
          omega
        have hnx : nodupKeys x = true := nodupKeysProps_mem ps a x hv.2 hmem
        have hny : nodupKeys y = true :=
          nodupKeysProps_mem qs a y hw.2 (getVal_mem qs a y hy)
        rw [hgp2, hgq2]
        simp only [Option.getD_some]
        rw [ih x y hsx hnx hny hexy]
      | null => simp_all [jequiv]
      | bool b => simp_all [jequiv]
      | num b => simp_all [jequiv]
      | str b => simp_all [jequiv]
      | arr ys => simp_all [jequiv]

theorem sortKeys_jequiv (v w : Json) (hv : nodupKeys v = true)
    (hw : nodupKeys w = true) (he : jequiv v w = true) :
    sortKeys v = sortKeys w :=
  sortKeys_jequiv_aux (sizeOf v) v w (le_refl _) hv hw he

end JsonFormatter
namespace JsonFormatter

theorem nodupKeysList_of_forall (xs : List Json)
    (h : ∀ x ∈ xs, nodupKeys x = true) : nodupKeysList xs = true := by
  induction xs with
  | nil => rfl
  | cons x t ih =>
    rw [nodupKeysList]
    simp only [Bool.and_eq_true]
    exact ⟨h x (List.mem_cons_self x t),
      ih fun y hy => h y (List.mem_cons_of_mem x hy)⟩

theorem nodupKeysProps_of_forall (ps : List (String × Json))
    (h : ∀ p ∈ ps, nodupKeys p.2 = true) : nodupKeysProps ps = true := by
  induction ps with
  | nil => rfl
  | cons p t ih =>
    obtain ⟨a, b⟩ := p
    rw [nodupKeysProps]
    simp only [Bool.and_eq_true]
    exact ⟨h (a, b) (List.mem_cons_self _ t),
      ih fun q hq => h q (List.mem_cons_of_mem _ hq)⟩

theorem map_fst_replace (ps : List (String × Json)) (k : String)
    (v : Json) :
    (ps.map fun p => if p.1 = k then (k, v) else p).map Prod.fst =
      ps.map Prod.fst := by
  induction ps with
  | nil => rfl
  | cons p t ih =>
    rw [List.map_cons, List.map_cons, List.map_cons, ih]
    by_cases hp : p.1 = k
    · rw [if_pos hp]
      simp [hp]
    · rw [if_neg hp]

theorem jsSet_keys_of_mem (ps : List (String × Json)) (k : String) (v : Json)
    (h : (ps.any fun p => p.1 = k) = true) :
    (jsSet ps k v).map Prod.fst = ps.map Prod.fst := by
  rw [jsSet, if_pos h]
  exact map_fst_replace ps k v

theorem jsSet_keysNodup (ps : List (String × Json)) (k : String) (v : Json)
    (h : keysNodup (ps.map Prod.fst) = true) :
    keysNodup ((jsSet ps k v).map Prod.fst) = true := by
  by_cases hc : (ps.any fun p => p.1 = k) = true
  · rw [jsSet_keys_of_mem ps k v hc]
    exact h
  · rw [jsSet, if_neg hc]
    rw [keysNodup_iff_nodup] at h ⊢
    rw [List.map_append]
    simp only [List.map_cons, List.map_nil]
    rw [List.nodup_append]
    refine ⟨h, List.nodup_singleton k, ?_⟩
    intro a ha
    simp only [List.mem_singleton]
    intro hak
    subst hak
    obtain ⟨p, hp, hfst⟩ := List.mem_map.mp ha
    rw [List.any_eq_true] at hc
    exact hc ⟨p, hp, by simp [hfst]⟩

theorem mem_jsSet (ps : List (String × Json)) (k : String) (v : Json)
    (q : String × Json) (h : q ∈ jsSet ps k v) : q ∈ ps ∨ q = (k, v) := by
  rw [jsSet] at h
  by_cases hc : (ps.any fun p => p.1 = k) = true
  · rw [if_pos hc] at h
    obtain ⟨p, hp, hq⟩ := List.mem_map.mp h
    by_cases hpk : p.1 = k
    · rw [if_pos hpk] at hq
      right
      exact hq.symm
    · rw [if_neg hpk] at hq
      left
      rw [← hq]
      exact hp
  · rw [if_neg hc] at h
    rcases List.mem_append.mp h with h2 | h2
    · left; exact h2
    · right; simpa using h2

theorem mkObj_foldl_nodup (pairs : List (String × Json)) :
    ∀ acc : List (String × Json),
      keysNodup (acc.map Prod.fst) = true →
      (∀ p ∈ acc, nodupKeys p.2 = true) →
      (∀ p ∈ pairs, nodupKeys p.2 = true) →
      keysNodup ((pairs.foldl (fun a m => jsSet a m.1 m.2) acc).map
        Prod.fst) = true ∧
      ∀ p ∈ pairs.foldl (fun a m => jsSet a m.1 m.2) acc,
        nodupKeys p.2 = true := by
  induction pairs with
  | nil => intro acc h1 h2 _; exact ⟨h1, h2⟩
  | cons m t ih =>
    intro acc h1 h2 h3
    rw [List.foldl_cons]
    refine ih (jsSet acc m.1 m.2) (jsSet_keysNodup acc m.1 m.2 h1) ?_
      fun p hp => h3 p (List.mem_cons_of_mem m hp)
    intro p hp
    rcases mem_jsSet acc m.1 m.2 p hp with h4 | h4
    · exact h2 p h4
    · rw [h4]
      exact h3 m (List.mem_cons_self m t)

theorem mkObj_nodup (pairs : List (String × Json))
    (h : ∀ p ∈ pairs, nodupKeys p.2 = true) :
    nodupKeys (.obj (mkObj pairs)) = true := by
  rw [nodupKeys, mkObj]
  simp only [Bool.and_eq_true]
  obtain ⟨h1, h2⟩ := mkObj_foldl_nodup pairs [] rfl (by simp) h
  exact ⟨h1, nodupKeysProps_of_forall _ h2⟩

end JsonFormatter
namespace JsonFormatter

theorem parser_nodup (fuel : Nat) :
    (∀ cs v r, pVal fuel cs = some (v, r) → nodupKeys v = true) ∧
    (∀ cs acc v r, (∀ x ∈ acc, nodupKeys x = true) →
      pArrLoop fuel cs acc = some (v, r) → nodupKeys v = true) ∧
    (∀ cs acc v r, (∀ p ∈ acc, nodupKeys p.2 = true) →
      pObjLoop fuel cs acc = some (v, r) → nodupKeys v = true) := by
  induction fuel with
  | zero =>
    refine ⟨?_, ?_, ?_⟩
    · intro cs v r h
      exact Option.noConfusion h
    · intro cs acc v r _ h
      exact Option.noConfusion h
    · intro cs acc v r _ h
      exact Option.noConfusion h
  | succ m ih =>
    obtain ⟨ihV, ihA, ihO⟩ := ih
    refine ⟨?_, ?_, ?_⟩
    · intro cs v r h
      cases cs with
      | nil => exact Option.noConfusion h
      | cons c t =>
        rw [pVal.eq_def] at h
        repeat' split at h
        all_goals try injections
        all_goals try subst_vars
        all_goals
          first
          | rfl
          | exact Option.noConfusion h
          | (simp only [Option.some.injEq, Prod.mk.injEq] at h;
             obtain ⟨h1, h2⟩ := h; subst h1; rfl)
          | exact ihA _ _ _ _ (fun x hx => absurd hx (by simp)) h
          | exact ihO _ _ _ _ (fun p hp => absurd hp (by simp)) h
    · intro cs acc v r hacc h
      rw [pArrLoop.eq_def] at h
      repeat' split at h
      all_goals try injections
      all_goals try subst_vars
      all_goals
        first
        | exact Option.noConfusion h
        | (refine ihA _ _ _ _ (fun x hx => ?_) h;
           rcases List.mem_append.mp hx with h2 | h2 <;>
             first
             | exact hacc _ h2
             | (simp only [List.mem_singleton] at h2; subst h2;
                exact ihV _ _ _ (by assumption)))
        | (simp only [Option.some.injEq, Prod.mk.injEq] at h;
           obtain ⟨h1, h2⟩ := h; subst h1;
           rw [nodupKeys];
           refine nodupKeysList_of_forall _ (fun x hx => ?_);
           rcases List.mem_append.mp hx with h2 | h2 <;>
             first
             | exact hacc _ h2
             | (simp only [List.mem_singleton] at h2; subst h2;
                exact ihV _ _ _ (by assumption)))
        | (rw [nodupKeys];
           refine nodupKeysList_of_forall _ (fun x hx => ?_);
           rcases List.mem_append.mp hx with h2 | h2 <;>
             first
             | exact hacc _ h2
             | (simp only [List.mem_singleton] at h2; subst h2;
                exact ihV _ _ _ (by assumption)))
    · intro cs acc v r hacc h
      rw [pObjLoop.eq_def] at h
      repeat' split at h
      all_goals try injections
      all_goals try subst_vars
      all_goals
        first
        | exact Option.noConfusion h
        | (refine ihO _ _ _ _ (fun p hp => ?_) h;
           rcases List.mem_append.mp hp with h2 | h2 <;>
             first
             | exact hacc _ h2
             | (simp only [List.mem_singleton] at h2; subst h2;
                exact ihV _ _ _ (by assumption)))
        | (simp only [Option.some.injEq, Prod.mk.injEq] at h;
           obtain ⟨h1, h2⟩ := h; subst h1;
           refine mkObj_nodup _ (fun p hp => ?_);
           rcases List.mem_append.mp hp with h2 | h2 <;>
             first
             | exact hacc _ h2
             | (simp only [List.mem_singleton] at h2; subst h2;
                exact ihV _ _ _ (by assumption)))
        | (refine mkObj_nodup _ (fun p hp => ?_);
           rcases List.mem_append.mp hp with h2 | h2 <;>
             first
             | exact hacc _ h2
             | (simp only [List.mem_singleton] at h2; subst h2;
                exact ihV _ _ _ (by assumption)))

theorem jparse_nodup (t : String) (v : Json) (h : jparse t = some v) :
    nodupKeys v = true := by
  rw [jparse] at h
  split at h
  · rename_i v2 r2 hp
    split at h
    · simp only [Option.some.injEq] at h
      subst h
      exact (parser_nodup _).1 _ _ _ hp
    · exact Option.noConfusion h
  · exact Option.noConfusion h

end JsonFormatter
namespace JsonFormatter

theorem jsEnumProps_keys (ps : List (String × Json)) :
    (jsEnumProps ps).map Prod.fst = ps.map Prod.fst := by
  induction ps with
  | nil => rfl
  | cons p t ih =>
    obtain ⟨a, b⟩ := p
    rw [jsEnumProps, List.map_cons, List.map_cons, ih]

theorem mem_jsEnumProps (ps : List (String × Json)) (p : String × Json)
    (h : p ∈ jsEnumProps ps) : ∃ q ∈ ps, p = (q.1, jsEnum q.2) := by
  induction ps with
  | nil => exact absurd h (by rw [jsEnumProps]; simp)
  | cons q t ih =>
    obtain ⟨a, b⟩ := q
    rw [jsEnumProps] at h
    rcases List.mem_cons.mp h with rfl | h2
    · exact ⟨(a, b), List.mem_cons_self _ _, rfl⟩
    · obtain ⟨q2, hq2, he⟩ := ih h2
      exact ⟨q2, List.mem_cons_of_mem _ hq2, he⟩

theorem sortKeysList_eq_map (xs : List Json) :
    sortKeysList xs = xs.map sortKeys := by
  induction xs with
  | nil => rfl
  | cons x t ih => rw [sortKeysList, List.map_cons, ih]

theorem jsEnumList_eq_map (xs : List Json) :
    jsEnumList xs = xs.map jsEnum := by
  induction xs with
  | nil => rfl
  | cons x t ih => rw [jsEnumList, List.map_cons, ih]

theorem keysAscendingList_of_forall (le : String → String → Bool)
    (xs : List Json) (h : ∀ x ∈ xs, keysAscending le x = true) :
    keysAscendingList le xs = true := by
  induction xs with
  | nil => rfl
  | cons x t ih =>
    rw [keysAscendingList]
    simp only [Bool.and_eq_true]
    exact ⟨h x (List.mem_cons_self x t),
      ih fun y hy => h y (List.mem_cons_of_mem x hy)⟩

theorem keysAscendingProps_of_forall (le : String → String → Bool)
    (ps : List (String × Json))
    (h : ∀ p ∈ ps, keysAscending le p.2 = true) :
    keysAscendingProps le ps = true := by
  induction ps with
  | nil => rfl
  | cons p t ih =>
    obtain ⟨a, b⟩ := p
    rw [keysAscendingProps]
    simp only [Bool.and_eq_true]
    exact ⟨h (a, b) (List.mem_cons_self _ t),
      ih fun q hq => h q (List.mem_cons_of_mem _ hq)⟩

theorem jsOrderProps_keys_pairwise (X : List (String × Json))
    (h : (X.map Prod.fst).Pairwise fun a b => strLe a b = true) :
    ((jsOrderProps X).map Prod.fst).Pairwise
      fun a b => jsKeyLe a b = true := by
  rw [jsOrderProps, List.map_append]
  rw [List.pairwise_append]
  refine ⟨?_, ?_, ?_⟩
  · have hp : (insSortBy keyLeB (X.filter fun p => isIndexKey p.1)).Pairwise
        fun p q => keyLeB p q = true :=
      insSortBy_pairwise keyLeB keyLeB_total keyLeB_trans _
    have hidx : ∀ p ∈ insSortBy keyLeB (X.filter fun p => isIndexKey p.1),
        isIndexKey p.1 = true := by
      intro p hp2
      have := (insSortBy_perm keyLeB _).subset hp2
      exact (List.mem_filter.mp this).2
    rw [List.pairwise_map]
    refine hp.imp_of_mem ?_
    intro a b ha hb hab
    rw [jsKeyLe, if_pos (hidx a ha), if_pos (hidx b hb)]
    rw [keyLeB] at hab
    exact hab
  · have hsub : ((X.filter fun p => !isIndexKey p.1).map Prod.fst).Sublist
        (X.map Prod.fst) := (List.filter_sublist X).map Prod.fst
    have hp := h.sublist hsub
    have hnidx : ∀ p ∈ X.filter fun p => !isIndexKey p.1,
        isIndexKey p.1 = false := by
      intro p hp2
      have := (List.mem_filter.mp hp2).2
      simpa using this
    rw [List.pairwise_map] at hp ⊢
    refine hp.imp_of_mem ?_
    intro a b ha hb hab
    rw [jsKeyLe, if_neg (by rw [hnidx a ha]; simp), if_neg (by rw [hnidx b hb]; simp)]
    exact hab
  · intro a ha b hb
    obtain ⟨p, hp, rfl⟩ := List.mem_map.mp ha
    obtain ⟨q, hq, rfl⟩ := List.mem_map.mp hb
    have hpi : isIndexKey p.1 = true := by
      have := (insSortBy_perm keyLeB _).subset hp
      exact (List.mem_filter.mp this).2
    have hqi : isIndexKey q.1 = false := by
      have := (List.mem_filter.mp hq).2
      simpa using this
    rw [jsKeyLe, if_pos hpi, if_neg (by rw [hqi]; simp)]

end JsonFormatter
namespace JsonFormatter

theorem sortKeys_keysAscending_aux :
    ∀ (n : Nat) (v : Json), sizeOf v ≤ n → nodupKeys v = true →
      keysAscending jsKeyLe (jsEnum (sortKeys v)) = true := by
  intro n
  induction n with
  | zero =>
    intro v hs
    exact absurd hs (by cases v <;> simp)
  | succ m ih =>
    intro v hs hv
    cases v with
    | null => rfl
    | bool b => rfl
    | num s => rfl
    | str s => rfl
    | arr xs =>
      rw [sortKeys, jsEnum, keysAscending]
      rw [nodupKeys] at hv
      refine keysAscendingList_of_forall _ _ ?_
      intro y hy
      rw [jsEnumList_eq_map, sortKeysList_eq_map, List.map_map] at hy
      obtain ⟨x, hx, rfl⟩ := List.mem_map.mp hy
      have hsx : sizeOf x ≤ m := by
        have := sizeOf_mem_lt xs x hx
        omega
      exact ih x hsx (nodupKeysList_mem xs x hv hx)
    | obj ps =>
      rw [sortKeys, jsEnum, keysAscending]
      rw [nodupKeys] at hv
      simp only [Bool.and_eq_true] at hv
      have hndP : keysNodup ((sortKeysProps ps).map Prod.fst) = true := by
        rw [sortKeysProps_keys]
        exact hv.1
      have hPmap := rebuildSorted_eq_map (sortKeysProps ps) hndP
      have hkeys : (rebuildSorted (sortKeysProps ps)).map Prod.fst =
          strSort (objKeys (sortKeysProps ps)) := by
        rw [hPmap, List.map_map]
        have hcomp : (Prod.fst ∘ fun k =>
            (k, (getVal (sortKeysProps ps) k).getD Json.null)) = id := rfl
        rw [hcomp, List.map_id]
      simp only [Bool.and_eq_true]
      constructor
      · refine pairwiseLeB_of_pairwise _ _ ?_
        refine jsOrderProps_keys_pairwise _ ?_
        rw [jsEnumProps_keys, hkeys]
        exact strSort_pairwise _
      · refine keysAscendingProps_of_forall _ _ ?_
        intro p hp
        have hp2 := (jsOrderProps_perm _).subset hp
        obtain ⟨q, hq, rfl⟩ := mem_jsEnumProps _ _ hp2
        rw [hPmap] at hq
        obtain ⟨k, hk, rfl⟩ := List.mem_map.mp hq
        have hkps : k ∈ ps.map Prod.fst := by
          have h1 := (strSort_perm _).subset hk
          have h2 := (objKeys_perm _).subset h1
          rwa [sortKeysProps_keys] at h2
        obtain ⟨⟨a, x⟩, hmem, hfst⟩ := List.mem_map.mp hkps
        simp only at hfst
        subst hfst
        have hgp : getVal ps a = some x :=
          mem_getVal ps a x ((keysNodup_iff_nodup _).mp hv.1) hmem
        have hg2 : getVal (sortKeysProps ps) a = some (sortKeys x) := by
          rw [getVal_sortKeysProps, hgp]
          rfl
        have hsx : sizeOf x ≤ m := by
          have := sizeOf_getVal_lt ps a x hmem
          omega
        have hfin := ih x hsx (nodupKeysProps_mem ps a x hv.2 hmem)
        simp only [hg2, Option.getD_some]
        exact hfin

end JsonFormatter
namespace JsonFormatter

/-- Claim C5 (amended): two JSON texts whose parsed value trees are equal
up to object key ordering normalize to the identical canonical string
(whitespace differences disappear in parsing); at every nesting level the
canonical string's object keys appear in ascending order of the JS
property-enumeration comparison `jsKeyLe` — integer-like keys first in
ascending numeric order, then the remaining keys in ascending lexicographic
order — with the fixed 2-space indentation built into the serializer; in
particular the two key orders of the `b`/`a` example normalize
identically. -/
theorem normalizedJson_canonicalizes :
    (∀ (t1 t2 : String) (v1 v2 : Json), jparse t1 = some v1 →
      jparse t2 = some v2 → jequiv v1 v2 = true →
      normalizedJson t1 = normalizedJson t2) ∧
    (∀ (t : String) (v : Json), jparse t = some v →
      keysAscending jsKeyLe (jsEnum (sortKeys v)) = true) ∧
    normalizedJson "\x7b\"b\":1,\"a\":2\x7d" =
      normalizedJson "\x7b\"a\":2,\"b\":1\x7d" ∧
    normalizedJson "\x7b\"b\":1,\"a\":2\x7d" =
      some "\x7b\n  \"a\": 2,\n  \"b\": 1\n\x7d" := by
  refine ⟨?_, ?_, rfl, rfl⟩
  · intro t1 t2 v1 v2 h1 h2 he
    simp only [normalizedJson, h1, h2]
    rw [sortKeys_jequiv v1 v2 (jparse_nodup t1 v1 h1)
      (jparse_nodup t2 v2 h2) he]
  · intro t v h
    exact sortKeys_keysAscending_aux (sizeOf v) v (le_refl _)
      (jparse_nodup t v h)

theorem normalizedJson_canonicalizes_witness :
    jparse "\x7b\"b\":1,\"a\":2\x7d" =
      some (.obj [("b", .num "1"), ("a", .num "2")]) ∧
    jparse "\x7b\"a\":2,\"b\":1\x7d" =
      some (.obj [("a", .num "2"), ("b", .num "1")]) ∧
    jequiv (.obj [("b", .num "1"), ("a", .num "2")])
      (.obj [("a", .num "2"), ("b", .num "1")]) = true ∧
    normalizedJson "\x7b\"b\":1,\"a\":2\x7d" =
      normalizedJson "\x7b\"a\":2,\"b\":1\x7d" :=
  ⟨rfl, rfl, rfl,
    normalizedJson_canonicalizes.1 _ _
      (.obj [("b", .num "1"), ("a", .num "2")])
      (.obj [("a", .num "2"), ("b", .num "1")]) rfl rfl rfl⟩

/-- Claim C5, counterexample to "object keys in ascending (lexicographic)
order at every nesting level": integer-like keys are enumerated numerically
by JS, so `normalizedJson` puts `"9"` before `"10"` although
`"10" < "9"` lexicographically — the printed key sequence is not
lexicographically ascending. -/
theorem normalizedJson_numeric_keys_not_lex :
    normalizedJson "\x7b\"10\":0,\"9\":0\x7d" =
      some "\x7b\n  \"9\": 0,\n  \"10\": 0\n\x7d" ∧
    jparse "\x7b\"10\":0,\"9\":0\x7d" =
      some (.obj [("10", .num "0"), ("9", .num "0")]) ∧
    keysAscending strLe
      (jsEnum (sortKeys (.obj [("10", .num "0"), ("9", .num "0")]))) =
      false ∧
    strLe "10" "9" = true ∧ ("10" : String) ≠ "9" :=
  ⟨rfl, rfl, rfl, rfl, by decide⟩

end JsonFormatter
namespace JsonFormatter

theorem jsEnumProps_eq_map (ps : List (String × Json)) :
    jsEnumProps ps = ps.map fun p => (p.1, jsEnum p.2) := by
  induction ps with
  | nil => rfl
  | cons p t ih =>
    obtain ⟨a, b⟩ := p
    rw [jsEnumProps, List.map_cons, ih]

theorem sortKeysProps_eq_map (ps : List (String × Json)) :
    sortKeysProps ps = ps.map fun p => (p.1, sortKeys p.2) := by
  induction ps with
  | nil => rfl
  | cons p t ih =>
    obtain ⟨a, b⟩ := p
    rw [sortKeysProps, List.map_cons, ih]

theorem map_keys_getVal_eq (X : List (String × Json))
    (hnd : (X.map Prod.fst).Nodup) :
    (X.map Prod.fst).map (fun k => (k, (getVal X k).getD .null)) = X := by
  have h1 : ∀ p ∈ X, (p.1, (getVal X p.1).getD Json.null) = p := by
    intro p hp
    have := mem_getVal X p.1 p.2 hnd hp
    rw [this]
    rfl
  calc (X.map Prod.fst).map (fun k => (k, (getVal X k).getD .null))
      = X.map fun p => (p.1, (getVal X p.1).getD .null) := by
        rw [List.map_map]; rfl
    _ = X.map id := List.map_congr_left fun p hp => h1 p hp
    _ = X := List.map_id X

theorem rebuildSorted_perm (X : List (String × Json))
    (hnd : keysNodup (X.map Prod.fst) = true) :
    (rebuildSorted X).Perm X := by
  rw [rebuildSorted_eq_map X hnd]
  have hperm : (strSort (objKeys X)).Perm (X.map Prod.fst) :=
    (strSort_perm _).trans (objKeys_perm X)
  have := hperm.map fun k => (k, (getVal X k).getD Json.null)
  rw [map_keys_getVal_eq X ((keysNodup_iff_nodup _).mp hnd)] at this
  exact this

theorem jequivProps_of_forall (ps qs : List (String × Json))
    (h : ∀ k v, (k, v) ∈ ps →
      ∃ y, getVal qs k = some y ∧ jequiv v y = true) :
    jequivProps ps qs = true := by
  induction ps with
  | nil => rfl
  | cons p t ih =>
    obtain ⟨a, b⟩ := p
    rw [jequivProps]
    simp only [Bool.and_eq_true]
    constructor
    · obtain ⟨y, hy, he⟩ := h a b (List.mem_cons_self _ t)
      rw [hy]
      exact he
    · exact ih fun k v hm => h k v (List.mem_cons_of_mem _ hm)

theorem jequivList_of_pointwise (f : Json → Json) (xs : List Json)
    (h : ∀ x ∈ xs, jequiv (f x) x = true) :
    jequivList (xs.map f) xs = true := by
  induction xs with
  | nil => rfl
  | cons x t ih =>
    rw [List.map_cons, jequivList]
    simp only [Bool.and_eq_true]
    exact ⟨h x (List.mem_cons_self x t),
      ih fun y hy => h y (List.mem_cons_of_mem x hy)⟩

theorem jequiv_jsEnum_aux :
    ∀ (n : Nat) (v : Json), sizeOf v ≤ n → nodupKeys v = true →
      jequiv (jsEnum v) v = true := by
  intro n
  induction n with
  | zero =>
    intro v hs
    exact absurd hs (by cases v <;> simp)
  | succ m ih =>
    intro v hs hv
    cases v with
    | null => rfl
    | bool b => rw [jsEnum, jequiv]; simp
    | num s => rw [jsEnum, jequiv]; simp
    | str s => rw [jsEnum, jequiv]; simp
    | arr xs =>
      rw [jsEnum, jequiv, jsEnumList_eq_map]
      rw [nodupKeys] at hv
      refine jequivList_of_pointwise jsEnum xs ?_
      intro x hx
      have hsx : sizeOf x ≤ m := by
        have := sizeOf_mem_lt xs x hx
        omega
      exact ih x hsx (nodupKeysList_mem xs x hv hx)
    | obj ps =>
      rw [jsEnum, jequiv]
      rw [nodupKeys] at hv
      simp only [Bool.and_eq_true] at hv
      have hperm : (jsOrderProps (jsEnumProps ps)).Perm
          (ps.map fun p => (p.1, jsEnum p.2)) := by
        rw [jsEnumProps_eq_map] at *
        exact jsOrderProps_perm _
      simp only [Bool.and_eq_true, decide_eq_true_eq]
      constructor
      · rw [hperm.length_eq, List.length_map]
      · refine jequivProps_of_forall _ _ ?_
        intro k w hm
        have := hperm.subset hm
        obtain ⟨p, hp, he⟩ := List.mem_map.mp this
        obtain ⟨h1, h2⟩ := Prod.mk.inj he.symm
        subst h1
        subst h2
        refine ⟨p.2, mem_getVal ps p.1 p.2
          ((keysNodup_iff_nodup _).mp hv.1) hp, ?_⟩
        have hsx : sizeOf p.2 ≤ m := by
          have := sizeOf_getVal_lt ps p.1 p.2 (by simpa using hp)
          omega
        exact ih p.2 hsx (nodupKeysProps_mem ps p.1 p.2 hv.2 (by simpa using hp))

theorem jequiv_sortKeys_aux :
    ∀ (n : Nat) (v : Json), sizeOf v ≤ n → nodupKeys v = true →
      jequiv (sortKeys v) v = true := by
  intro n
  induction n with
  | zero =>
    intro v hs
    exact absurd hs (by cases v <;> simp)
  | succ m ih =>
    intro v hs hv
    cases v with
    | null => rfl
    | bool b => rw [sortKeys, jequiv]; simp
    | num s => rw [sortKeys, jequiv]; simp
    | str s => rw [sortKeys, jequiv]; simp
    | arr xs =>
      rw [sortKeys, jequiv, sortKeysList_eq_map]
      rw [nodupKeys] at hv
      refine jequivList_of_pointwise sortKeys xs ?_
      intro x hx
      have hsx : sizeOf x ≤ m := by
        have := sizeOf_mem_lt xs x hx
        omega
      exact ih x hsx (nodupKeysList_mem xs x hv hx)
    | obj ps =>
      rw [sortKeys, jequiv]
      rw [nodupKeys] at hv
      simp only [Bool.and_eq_true] at hv
      have hndP : keysNodup ((sortKeysProps ps).map Prod.fst) = true := by
        rw [sortKeysProps_keys]
        exact hv.1
      have hperm : (rebuildSorted (sortKeysProps ps)).Perm
          (ps.map fun p => (p.1, sortKeys p.2)) := by
        refine (rebuildSorted_perm (sortKeysProps ps) hndP).trans ?_
        rw [sortKeysProps_eq_map]
      simp only [Bool.and_eq_true, decide_eq_true_eq]
      constructor
      · rw [hperm.length_eq, List.length_map]
      · refine jequivProps_of_forall _ _ ?_
        intro k w hm
        have := hperm.subset hm
        obtain ⟨p, hp, he⟩ := List.mem_map.mp this
        obtain ⟨h1, h2⟩ := Prod.mk.inj he.symm
        subst h1
        subst h2
        refine ⟨p.2, mem_getVal ps p.1 p.2
          ((keysNodup_iff_nodup _).mp hv.1) hp, ?_⟩
        have hsx : sizeOf p.2 ≤ m := by
          have := sizeOf_getVal_lt ps p.1 p.2 (by simpa using hp)
          omega
        exact ih p.2 hsx (nodupKeysProps_mem ps p.1 p.2 hv.2 (by simpa using hp))

end JsonFormatter
namespace JsonFormatter

theorem sortKeys_nodup_aux :
    ∀ (n : Nat) (v : Json), sizeOf v ≤ n → nodupKeys v = true →
      nodupKeys (sortKeys v) = true := by
  intro n
  induction n with
  | zero =>
    intro v hs
    exact absurd hs (by cases v <;> simp)
  | succ m ih =>
    intro v hs hv
    cases v with
    | null => rfl
    | bool b => rfl
    | num s => rfl
    | str s => rfl
    | arr xs =>
      rw [sortKeys, nodupKeys, sortKeysList_eq_map]
      rw [nodupKeys] at hv
      refine nodupKeysList_of_forall _ ?_
      intro y hy
      obtain ⟨x, hx, rfl⟩ := List.mem_map.mp hy
      have hsx : sizeOf x ≤ m := by
        have := sizeOf_mem_lt xs x hx
        omega
      exact ih x hsx (nodupKeysList_mem xs x hv hx)
    | obj ps =>
      rw [sortKeys, nodupKeys]
      rw [nodupKeys] at hv
      simp only [Bool.and_eq_true] at hv
      have hndP : keysNodup ((sortKeysProps ps).map Prod.fst) = true := by
        rw [sortKeysProps_keys]
        exact hv.1
      simp only [Bool.and_eq_true]
      constructor
      · rw [keysNodup_iff_nodup]
        exact ((rebuildSorted_perm _ hndP).map Prod.fst).nodup_iff.mpr
          (by rw [sortKeysProps_keys]
              exact (keysNodup_iff_nodup _).mp hv.1)
      · refine nodupKeysProps_of_forall _ ?_
        intro p hp
        have h2 := (rebuildSorted_perm _ hndP).subset hp
        rw [sortKeysProps_eq_map] at h2
        obtain ⟨q, hq, he⟩ := List.mem_map.mp h2
        have hval : p.2 = sortKeys q.2 := by
          rw [← he]
        rw [hval]
        have hsx : sizeOf q.2 ≤ m := by
          have := sizeOf_getVal_lt ps q.1 q.2 (by simpa using hq)
          omega
        exact ih q.2 hsx (nodupKeysProps_mem ps q.1 q.2 hv.2 (by simpa using hq))

theorem jsEnum_nodup_aux :
    ∀ (n : Nat) (v : Json), sizeOf v ≤ n → nodupKeys v = true →
      nodupKeys (jsEnum v) = true := by
  intro n
  induction n with
  | zero =>
    intro v hs
    exact absurd hs (by cases v <;> simp)
  | succ m ih =>
    intro v hs hv
    cases v with
    | null => rfl
    | bool b => rfl
    | num s => rfl
    | str s => rfl
    | arr xs =>
      rw [jsEnum, nodupKeys, jsEnumList_eq_map]
      rw [nodupKeys] at hv
      refine nodupKeysList_of_forall _ ?_
      intro y hy
      obtain ⟨x, hx, rfl⟩ := List.mem_map.mp hy
      have hsx : sizeOf x ≤ m := by
        have := sizeOf_mem_lt xs x hx
        omega
      exact ih x hsx (nodupKeysList_mem xs x hv hx)
    | obj ps =>
      rw [jsEnum, nodupKeys]
      rw [nodupKeys] at hv
      simp only [Bool.and_eq_true] at hv
      have hperm : (jsOrderProps (jsEnumProps ps)).Perm
          (ps.map fun p => (p.1, jsEnum p.2)) := by
        refine (jsOrderProps_perm _).trans ?_
        rw [jsEnumProps_eq_map]
      simp only [Bool.and_eq_true]
      constructor
      · rw [keysNodup_iff_nodup]
        refine (hperm.map Prod.fst).nodup_iff.mpr ?_
        rw [List.map_map]
        have hcomp : (Prod.fst ∘ fun p : String × Json =>
            (p.1, jsEnum p.2)) = Prod.fst := rfl
        rw [hcomp]
        exact (keysNodup_iff_nodup _).mp hv.1
      · refine nodupKeysProps_of_forall _ ?_
        intro p hp
        have h2 := hperm.subset hp
        obtain ⟨q, hq, he⟩ := List.mem_map.mp h2
        have hval : p.2 = jsEnum q.2 := by
          rw [← he]
        rw [hval]
        have hsx : sizeOf q.2 ≤ m := by
          have := sizeOf_getVal_lt ps q.1 q.2 (by simpa using hq)
          omega
        exact ih q.2 hsx (nodupKeysProps_mem ps q.1 q.2 hv.2 (by simpa using hq))

end JsonFormatter
namespace JsonFormatter

theorem digitSpan_append (ds rest : List Char)
    (h : ∀ c ∈ ds, c.isDigit = true)
    (hr : ∀ c t, rest = c :: t → c.isDigit = false) :
    digitSpan (ds ++ rest) = (ds, rest) := by
  induction ds with
  | nil =>
    cases rest with
    | nil => rfl
    | cons c t =>
      rw [List.nil_append, digitSpan, (hr c t rfl)]
      simp
  | cons c t ih =>
    rw [List.cons_append, digitSpan, h c (List.mem_cons_self c t)]
    simp only [if_true]
    rw [ih fun x hx => h x (List.mem_cons_of_mem c hx)]

theorem digitSpan_spec (cs : List Char) :
    cs = (digitSpan cs).1 ++ (digitSpan cs).2 ∧
    (∀ c ∈ (digitSpan cs).1, c.isDigit = true) ∧
    (∀ c t, (digitSpan cs).2 = c :: t → c.isDigit = false) := by
  induction cs with
  | nil => exact ⟨rfl, by simp [digitSpan], by simp [digitSpan]⟩
  | cons c t ih =>
    rw [digitSpan]
    by_cases hc : c.isDigit
    · simp only [hc, if_true]
      obtain ⟨h1, h2, h3⟩ := ih
      refine ⟨?_, ?_, ?_⟩
      · rw [List.cons_append, ← h1]
      · intro x hx
        rcases List.mem_cons.mp hx with rfl | hx2
        · exact hc
        · exact h2 x hx2
      · exact h3
    · simp only [hc, if_false]
      refine ⟨rfl, by simp, ?_⟩
      intro x t2 he
      obtain ⟨h4, h5⟩ := List.cons.inj he
      subst h4
      simpa using hc

end JsonFormatter
namespace JsonFormatter

theorem isDigit_toNat (c : Char) (h : c.isDigit = true) :
    48 ≤ c.toNat ∧ c.toNat ≤ 57 := by
  unfold Char.isDigit at h
  simp at h
  exact ⟨h.1, h.2⟩

theorem isDigit_ne (c x : Char) (h : c.isDigit = true)
    (hx : x.toNat < 48 ∨ 57 < x.toNat) : c ≠ x := by
  intro he
  subst he
  have := isDigit_toNat c h
  omega

theorem pFrac_none (z : List Char)
    (h : ∀ c t, z = c :: t → c ≠ '.') : pFrac z = ([], z) := by
  cases z with
  | nil => rfl
  | cons c t =>
    have hc := h c t rfl
    rw [pFrac.eq_def]
    split <;> simp_all

theorem pFrac_append (c : Char) (ds z : List Char)
    (hc : c.isDigit = true) (hds : ∀ x ∈ ds, x.isDigit = true)
    (hz : ∀ x t, z = x :: t → x.isDigit = false) :
    pFrac (('.' :: c :: ds) ++ z) = ('.' :: c :: ds, z) := by
  rw [List.cons_append, List.cons_append, pFrac]
  simp only [hc, if_true]
  rw [digitSpan_append ds z hds hz]

theorem pExp_none (z : List Char)
    (h : ∀ c t, z = c :: t → c ≠ 'e' ∧ c ≠ 'E') : pExp z = ([], z) := by
  cases z with
  | nil => rfl
  | cons c t =>
    obtain ⟨h1, h2⟩ := h c t rfl
    rw [pExp.eq_def]
    simp [h1, h2]

theorem pExp_append (e : Char) (s : List Char) (c : Char) (ds z : List Char)
    (he : e = 'e' ∨ e = 'E') (hs : s = [] ∨ s = ['+'] ∨ s = ['-'])
    (hc : c.isDigit = true) (hds : ∀ x ∈ ds, x.isDigit = true)
    (hz : ∀ x t, z = x :: t → x.isDigit = false) :
    pExp ((e :: (s ++ c :: ds)) ++ z) = (e :: (s ++ c :: ds), z) := by
  rcases hs with rfl | rfl | rfl
  · have hshape : (e :: (([] : List Char) ++ c :: ds)) ++ z =
        e :: c :: (ds ++ z) := by simp
    rw [hshape, pExp.eq_def]
    have hnp : ¬ (c = '+' ∨ c = '-') := by
      rintro (rfl | rfl) <;> simp_all [Char.isDigit]
    simp only [he, if_true, hnp, if_false, hc,
      digitSpan_append ds z hds hz]
    simp
  · have hshape : (e :: ((['+'] : List Char) ++ c :: ds)) ++ z =
        e :: '+' :: c :: (ds ++ z) := by simp
    rw [hshape, pExp.eq_def]
    have hp : ('+' : Char) = '+' ∨ ('+' : Char) = '-' := Or.inl rfl
    simp only [he, if_true, hp, hc, digitSpan_append ds z hds hz]
    simp
  · have hshape : (e :: ((['-'] : List Char) ++ c :: ds)) ++ z =
        e :: '-' :: c :: (ds ++ z) := by simp
    rw [hshape, pExp.eq_def]
    have hp : ('-' : Char) = '+' ∨ ('-' : Char) = '-' := Or.inr rfl
    simp only [he, if_true, hp, hc, digitSpan_append ds z hds hz]
    simp

end JsonFormatter
namespace JsonFormatter

theorem fracExp_head_not_digit (frac expp z : List Char)
    (hfrac : frac = [] ∨ ∃ c ds, frac = '.' :: c :: ds ∧ c.isDigit = true ∧
      ∀ x ∈ ds, x.isDigit = true)
    (hexp : expp = [] ∨ ∃ e s c ds, expp = e :: (s ++ c :: ds) ∧
      (e = 'e' ∨ e = 'E') ∧ (s = [] ∨ s = ['+'] ∨ s = ['-']) ∧
      c.isDigit = true ∧ ∀ x ∈ ds, x.isDigit = true)
    (hz : NumDelim z) :
    ∀ x t, frac ++ (expp ++ z) = x :: t → x.isDigit = false := by
  intro x t he
  rcases hfrac with rfl | ⟨c, ds, rfl, hc, hds⟩
  · rw [List.nil_append] at he
    rcases hexp with rfl | ⟨e, s, c, ds, rfl, hee, hs, hc, hds⟩
    · rw [List.nil_append] at he
      exact (hz x t he).1
    · rw [List.cons_append] at he
      obtain ⟨rfl, -⟩ := List.cons.inj he
      rcases hee with rfl | rfl <;> rfl
  · rw [List.cons_append] at he
    obtain ⟨rfl, -⟩ := List.cons.inj he
    rfl

theorem exp_head_ok (expp z : List Char)
    (hexp : expp = [] ∨ ∃ e s c ds, expp = e :: (s ++ c :: ds) ∧
      (e = 'e' ∨ e = 'E') ∧ (s = [] ∨ s = ['+'] ∨ s = ['-']) ∧
      c.isDigit = true ∧ ∀ x ∈ ds, x.isDigit = true)
    (hz : NumDelim z) :
    ∀ x t, expp ++ z = x :: t → x ≠ '.' := by
  intro x t he
  rcases hexp with rfl | ⟨e, s, c, ds, rfl, hee, hs, hc, hds⟩
  · rw [List.nil_append] at he
    exact (hz x t he).2.1
  · rw [List.cons_append] at he
    obtain ⟨rfl, -⟩ := List.cons.inj he
    rcases hee with rfl | rfl <;> simp

theorem pFracExp_run (frac expp z : List Char)
    (hfrac : frac = [] ∨ ∃ c ds, frac = '.' :: c :: ds ∧ c.isDigit = true ∧
      ∀ x ∈ ds, x.isDigit = true)
    (hexp : expp = [] ∨ ∃ e s c ds, expp = e :: (s ++ c :: ds) ∧
      (e = 'e' ∨ e = 'E') ∧ (s = [] ∨ s = ['+'] ∨ s = ['-']) ∧
      c.isDigit = true ∧ ∀ x ∈ ds, x.isDigit = true)
    (hz : NumDelim z) :
    pFrac (frac ++ (expp ++ z)) = (frac, expp ++ z) ∧
    pExp (expp ++ z) = (expp, z) := by
  constructor
  · rcases hfrac with rfl | ⟨c, ds, rfl, hc, hds⟩
    · rw [List.nil_append]
      refine pFrac_none _ ?_
      exact exp_head_ok expp z hexp hz
    · refine pFrac_append c ds _ hc hds ?_
      intro x t he
      rcases hexp with rfl | ⟨e, s, c2, ds2, rfl, hee, hs, hc2, hds2⟩
      · rw [List.nil_append] at he
        exact (hz x t he).1
      · rw [List.cons_append] at he
        obtain ⟨rfl, -⟩ := List.cons.inj he
        rcases hee with rfl | rfl <;> rfl
  · rcases hexp with rfl | ⟨e, s, c, ds, rfl, hee, hs, hc, hds⟩
    · rw [List.nil_append]
      refine pExp_none _ ?_
      intro x t he
      exact ⟨(hz x t he).2.2.1, (hz x t he).2.2.2⟩
    · refine pExp_append e s c ds z hee hs hc hds ?_
      intro x t he
      exact (hz x t he).1

end JsonFormatter
namespace JsonFormatter

theorem pNumInt_run (intp frac expp z sign : List Char)
    (hint : intp = ['0'] ∨ ∃ c ds, intp = c :: ds ∧ c.isDigit = true ∧
      c ≠ '0' ∧ ∀ x ∈ ds, x.isDigit = true)
    (hfrac : frac = [] ∨ ∃ c ds, frac = '.' :: c :: ds ∧ c.isDigit = true ∧
      ∀ x ∈ ds, x.isDigit = true)
    (hexp : expp = [] ∨ ∃ e s c ds, expp = e :: (s ++ c :: ds) ∧
      (e = 'e' ∨ e = 'E') ∧ (s = [] ∨ s = ['+'] ∨ s = ['-']) ∧
      c.isDigit = true ∧ ∀ x ∈ ds, x.isDigit = true)
    (hz : NumDelim z) :
    pNumInt ((intp ++ frac ++ expp) ++ z) sign =
      some (sign ++ intp ++ frac ++ expp, z) := by
  obtain ⟨hfr, hex⟩ := pFracExp_run frac expp z hfrac hexp hz
  have htail : ∀ x t, frac ++ (expp ++ z) = x :: t → x.isDigit = false :=
    fracExp_head_not_digit frac expp z hfrac hexp hz
  rcases hint with rfl | ⟨c, ds, rfl, hc, hc0, hds⟩
  · have hshape : ((['0'] : List Char) ++ frac ++ expp) ++ z =
        '0' :: (frac ++ (expp ++ z)) := by simp
    rw [hshape, pNumInt]
    simp only [if_pos rfl, hfr, hex]
    simp
  · have hshape : (((c :: ds) : List Char) ++ frac ++ expp) ++ z =
        c :: (ds ++ (frac ++ (expp ++ z))) := by simp
    rw [hshape, pNumInt]
    have hds2 := digitSpan_append ds (frac ++ (expp ++ z)) hds htail
    simp only [if_neg hc0, hc, if_pos rfl, hds2, hfr, hex, if_true]
    simp

theorem pNumber_append (lex z : List Char) (h : NumShape lex)
    (hz : NumDelim z) : pNumber (lex ++ z) = some (lex, z) := by
  obtain ⟨sign, intp, frac, expp, rfl, hsign, hint, hfrac, hexp⟩ := h
  have hrun := pNumInt_run intp frac expp z
  rcases hsign with rfl | rfl
  · have hhead : ∃ c t, intp = c :: t ∧ c.isDigit = true := by
      rcases hint with rfl | ⟨c, ds, rfl, hc, hc0, hds⟩
      · exact ⟨'0', [], rfl, by decide⟩
      · exact ⟨c, ds, rfl, hc⟩
    obtain ⟨c, t, rfl, hc⟩ := hhead
    have hshape : (([] : List Char) ++ (c :: t) ++ frac ++ expp) ++ z =
        c :: (t ++ frac ++ expp ++ z) := by simp
    rw [hshape, pNumber]
    have hcm : c ≠ '-' := isDigit_ne c '-' hc (by decide)
    rw [if_neg hcm]
    have := hrun [] hint hfrac hexp hz
    have hshape2 : c :: (t ++ frac ++ expp ++ z) =
        ((c :: t) ++ frac ++ expp) ++ z := by simp
    rw [hshape2, this]
  · have hshape : ((['-'] : List Char) ++ intp ++ frac ++ expp) ++ z =
        '-' :: ((intp ++ frac ++ expp) ++ z) := by simp
    rw [hshape, pNumber, if_pos rfl]
    rw [hrun ['-'] hint hfrac hexp hz]

end JsonFormatter
namespace JsonFormatter

theorem pFrac_spec (cs : List Char) :
    cs = (pFrac cs).1 ++ (pFrac cs).2 ∧
    ((pFrac cs).1 = [] ∨ ∃ c ds, (pFrac cs).1 = '.' :: c :: ds ∧
      c.isDigit = true ∧ ∀ x ∈ ds, x.isDigit = true) := by
  rw [pFrac.eq_def]
  split
  · rename_i c t
    by_cases hc : c.isDigit = true
    · simp only [hc, if_true]
      obtain ⟨h1, h2, h3⟩ := digitSpan_spec t
      constructor
      · simp only [List.cons_append]
        rw [← h1]
      · right
        exact ⟨c, (digitSpan t).1, rfl, hc, h2⟩
    · simp only [hc, if_false]
      exact ⟨rfl, by simp⟩
  · exact ⟨rfl, by simp⟩

theorem pExp_spec (cs : List Char) :
    cs = (pExp cs).1 ++ (pExp cs).2 ∧
    ((pExp cs).1 = [] ∨ ∃ e s c ds, (pExp cs).1 = e :: (s ++ c :: ds) ∧
      (e = 'e' ∨ e = 'E') ∧ (s = [] ∨ s = ['+'] ∨ s = ['-']) ∧
      c.isDigit = true ∧ ∀ x ∈ ds, x.isDigit = true) := by
  rw [pExp.eq_def]
  split
  · rename_i e t
    by_cases he : e = 'e' ∨ e = 'E'
    · simp only [he, if_true]
      split
      · rename_i s t2
        by_cases hs : s = '+' ∨ s = '-'
        · simp only [hs, if_true]
          split
          · rename_i c t3
            by_cases hc : c.isDigit = true
            · simp only [hc, if_true]
              obtain ⟨h1, h2, h3⟩ := digitSpan_spec t3
              constructor
              · simp only [List.cons_append]
                rw [← h1]
              · right
                refine ⟨e, [s], c, (digitSpan t3).1, by simp, he, ?_, hc, h2⟩
                rcases hs with rfl | rfl
                · right; left; rfl
                · right; right; rfl
            · simp only [hc, if_false]
              exact ⟨rfl, by simp⟩
          · exact ⟨rfl, by simp⟩
        · simp only [hs, if_false]
          by_cases hsd : s.isDigit = true
          · simp only [hsd, if_true]
            obtain ⟨h1, h2, h3⟩ := digitSpan_spec t2
            constructor
            · simp only [List.cons_append]
              rw [← h1]
            · right
              exact ⟨e, [], s, (digitSpan t2).1, by simp, he, Or.inl rfl,
                hsd, h2⟩
          · simp only [hsd, if_false]
            exact ⟨rfl, by simp⟩
      · exact ⟨rfl, by simp⟩
    · simp only [he, if_false]
      exact ⟨rfl, by simp⟩
  · exact ⟨rfl, by simp⟩

theorem pNumInt_spec (cs sign lex rest : List Char)
    (h : pNumInt cs sign = some (lex, rest)) :
    ∃ intp frac expp,
      lex = sign ++ intp ++ frac ++ expp ∧
      cs = (intp ++ frac ++ expp) ++ rest ∧
      (intp = ['0'] ∨ ∃ c ds, intp = c :: ds ∧ c.isDigit = true ∧
        c ≠ '0' ∧ ∀ x ∈ ds, x.isDigit = true) ∧
      (frac = [] ∨ ∃ c ds, frac = '.' :: c :: ds ∧ c.isDigit = true ∧
        ∀ x ∈ ds, x.isDigit = true) ∧
      (expp = [] ∨ ∃ e s c ds, expp = e :: (s ++ c :: ds) ∧
        (e = 'e' ∨ e = 'E') ∧ (s = [] ∨ s = ['+'] ∨ s = ['-']) ∧
        c.isDigit = true ∧ ∀ x ∈ ds, x.isDigit = true) := by
  rw [pNumInt.eq_def] at h
  split at h
  · exact Option.noConfusion h
  · rename_i c t
    by_cases hc0 : c = '0'
    · subst hc0
      rw [if_pos rfl] at h
      obtain ⟨hf1, hf2⟩ := pFrac_spec t
      obtain ⟨he1, he2⟩ := pExp_spec (pFrac t).2
      simp only [Option.some.injEq, Prod.mk.injEq] at h
      obtain ⟨hlex, hrest⟩ := h
      refine ⟨['0'], (pFrac t).1, (pExp (pFrac t).2).1, ?_, ?_, Or.inl rfl,
        hf2, he2⟩
      · rw [← hlex]
        simp
      · rw [List.cons_append]
        rw [← hrest]
        conv_lhs => rw [hf1]
        conv_lhs => rw [he1]
        simp
    · rw [if_neg hc0] at h
      by_cases hc : c.isDigit = true
      · rw [if_pos hc] at h
        obtain ⟨hd1, hd2, hd3⟩ := digitSpan_spec t
        obtain ⟨hf1, hf2⟩ := pFrac_spec (digitSpan t).2
        obtain ⟨he1, he2⟩ := pExp_spec (pFrac (digitSpan t).2).2
        simp only [Option.some.injEq, Prod.mk.injEq] at h
        obtain ⟨hlex, hrest⟩ := h
        refine ⟨c :: (digitSpan t).1, (pFrac (digitSpan t).2).1,
          (pExp (pFrac (digitSpan t).2).2).1, ?_, ?_,
          Or.inr ⟨c, (digitSpan t).1, rfl, hc, hc0, hd2⟩, hf2, he2⟩
        · rw [← hlex]
          simp
        · rw [List.cons_append]
          rw [← hrest]
          conv_lhs => rw [hd1]
          conv_lhs => rw [hf1]
          conv_lhs => rw [he1]
          simp
      · rw [if_neg hc] at h
        exact Option.noConfusion h

theorem pNumber_spec (cs lex rest : List Char)
    (h : pNumber cs = some (lex, rest)) :
    NumShape lex ∧ cs = lex ++ rest := by
  rw [pNumber.eq_def] at h
  split at h
  · exact Option.noConfusion h
  · rename_i c t
    by_cases hcm : c = '-'
    · subst hcm
      rw [if_pos rfl] at h
      obtain ⟨intp, frac, expp, hlex, hcs, hint, hfrac, hexp⟩ :=
        pNumInt_spec t ['-'] lex rest h
      constructor
      · exact ⟨['-'], intp, frac, expp, hlex, Or.inr rfl, hint, hfrac, hexp⟩
      · rw [hlex, hcs]
        simp
    · rw [if_neg hcm] at h
      obtain ⟨intp, frac, expp, hlex, hcs, hint, hfrac, hexp⟩ :=
        pNumInt_spec (c :: t) [] lex rest h
      constructor
      · exact ⟨[], intp, frac, expp, hlex, Or.inl rfl, hint, hfrac, hexp⟩
      · rw [hlex, hcs]
        simp

end JsonFormatter
namespace JsonFormatter

theorem hexVal_hexDigit (k : Nat) (h : k < 16) :
    hexVal (hexDigit k) = some k := by
  interval_cases k <;> rfl

theorem pStrBody_u (a b c d : Char) (r : List Char) :
    pStrBody ('\\' :: 'u' :: a :: b :: c :: d :: r) =
      match hexVal a, hexVal b, hexVal c, hexVal d with
      | some ha, some hb, some hc, some hd =>
        if ((ha * 16 + hb) * 16 + hc) * 16 + hd < 55296 ∨
            57344 ≤ ((ha * 16 + hb) * 16 + hc) * 16 + hd then
          consStr (Char.ofNat (((ha * 16 + hb) * 16 + hc) * 16 + hd))
            (pStrBody r)
        else none
      | _, _, _, _ => none := rfl

theorem pStrBody_u_some (a b c d : Char) (r : List Char)
    (ha hb hc hd : Nat) (e1 : hexVal a = some ha) (e2 : hexVal b = some hb)
    (e3 : hexVal c = some hc) (e4 : hexVal d = some hd) :
    pStrBody ('\\' :: 'u' :: a :: b :: c :: d :: r) =
      if ((ha * 16 + hb) * 16 + hc) * 16 + hd < 55296 ∨
          57344 ≤ ((ha * 16 + hb) * 16 + hc) * 16 + hd then
        consStr (Char.ofNat (((ha * 16 + hb) * 16 + hc) * 16 + hd))
          (pStrBody r)
      else none := by
  rw [pStrBody_u, e1, e2, e3, e4]

set_option maxHeartbeats 1600000 in
theorem pStrBody_plain (c : Char) (cs : List Char)
    (h1 : ¬c = '"') (h2 : ¬c = '\\') :
    pStrBody (c :: cs) =
      if c.toNat < 32 then none else consStr c (pStrBody cs) := by
  rw [pStrBody.eq_def]
  split
  · rename_i heq
    exact absurd heq (by simp)
  · rename_i heq
    obtain ⟨hh, -⟩ := List.cons.inj heq
    exact absurd hh h1
  · rename_i heq
    obtain ⟨hh, -⟩ := List.cons.inj heq
    exact absurd hh h2
  · rename_i c2 cs2 heq
    obtain ⟨hh, htl⟩ := List.cons.inj heq
    subst hh
    subst htl
    rfl

theorem pStrBody_roundtrip (s rest : List Char) :
    pStrBody ((s.map escStrChar).flatten ++ '"' :: rest) = some (s, rest) := by
  induction s with
  | nil => rfl
  | cons c t ih =>
    simp only [List.map_cons, List.flatten_cons, List.append_assoc]
    by_cases h1 : c = '"'
    · subst h1
      have hesc : escStrChar '"' = ['\\', '"'] := rfl
      rw [hesc]
      simp only [List.cons_append, List.nil_append]
      rw [show pStrBody ('\\' :: '"' ::
        ((t.map escStrChar).flatten ++ '"' :: rest)) =
        consStr '"' (pStrBody ((t.map escStrChar).flatten ++ '"' :: rest))
        from rfl, ih]
      rfl
    by_cases h2 : c = '\\'
    · subst h2
      have hesc : escStrChar '\\' = ['\\', '\\'] := rfl
      rw [hesc]
      simp only [List.cons_append, List.nil_append]
      rw [show pStrBody ('\\' :: '\\' ::
        ((t.map escStrChar).flatten ++ '"' :: rest)) =
        consStr '\\' (pStrBody ((t.map escStrChar).flatten ++ '"' :: rest))
        from rfl, ih]
      rfl
    by_cases h3 : c = '\x08'
    · subst h3
      have hesc : escStrChar '\x08' = ['\\', 'b'] := rfl
      rw [hesc]
      simp only [List.cons_append, List.nil_append]
      rw [show pStrBody ('\\' :: 'b' ::
        ((t.map escStrChar).flatten ++ '"' :: rest)) =
        consStr '\x08' (pStrBody ((t.map escStrChar).flatten ++ '"' :: rest))
        from rfl, ih]
      rfl
    by_cases h4 : c = '\x0c'
    · subst h4
      have hesc : escStrChar '\x0c' = ['\\', 'f'] := rfl
      rw [hesc]
      simp only [List.cons_append, List.nil_append]
      rw [show pStrBody ('\\' :: 'f' ::
        ((t.map escStrChar).flatten ++ '"' :: rest)) =
        consStr '\x0c' (pStrBody ((t.map escStrChar).flatten ++ '"' :: rest))
        from rfl, ih]
      rfl
    by_cases h5 : c = '\n'
    · subst h5
      have hesc : escStrChar '\n' = ['\\', 'n'] := rfl
      rw [hesc]
      simp only [List.cons_append, List.nil_append]
      rw [show pStrBody ('\\' :: 'n' ::
        ((t.map escStrChar).flatten ++ '"' :: rest)) =
        consStr '\n' (pStrBody ((t.map escStrChar).flatten ++ '"' :: rest))
        from rfl, ih]
      rfl
    by_cases h6 : c = '\x0d'
    · subst h6
      have hesc : escStrChar '\x0d' = ['\\', 'r'] := rfl
      rw [hesc]
      simp only [List.cons_append, List.nil_append]
      rw [show pStrBody ('\\' :: 'r' ::
        ((t.map escStrChar).flatten ++ '"' :: rest)) =
        consStr '\x0d' (pStrBody ((t.map escStrChar).flatten ++ '"' :: rest))
        from rfl, ih]
      rfl
    by_cases h7 : c = '\t'
    · subst h7
      have hesc : escStrChar '\t' = ['\\', 't'] := rfl
      rw [hesc]
      simp only [List.cons_append, List.nil_append]
      rw [show pStrBody ('\\' :: 't' ::
        ((t.map escStrChar).flatten ++ '"' :: rest)) =
        consStr '\t' (pStrBody ((t.map escStrChar).flatten ++ '"' :: rest))
        from rfl, ih]
      rfl
    by_cases h8 : c.toNat < 32
    · have hesc : escStrChar c =
          ['\\', 'u', '0', '0', hexDigit (c.toNat / 16),
            hexDigit (c.toNat % 16)] := by
        rw [escStrChar, if_neg h1, if_neg h2, if_neg h3, if_neg h4,
          if_neg h5, if_neg h6, if_neg h7, if_pos h8]
      rw [hesc]
      simp only [List.cons_append, List.nil_append]
      have hv2 : hexVal (hexDigit (c.toNat / 16)) = some (c.toNat / 16) :=
        hexVal_hexDigit _ (by omega)
      have hv3 : hexVal (hexDigit (c.toNat % 16)) = some (c.toNat % 16) :=
        hexVal_hexDigit _ (by omega)
      rw [pStrBody_u_some '0' '0' _ _ _ 0 0 _ _ rfl rfl hv2 hv3]
      have hn : ((0 * 16 + 0) * 16 + c.toNat / 16) * 16 + c.toNat % 16 =
          c.toNat := by omega
      rw [hn]
      rw [if_pos (by omega : c.toNat < 55296 ∨ 57344 ≤ c.toNat)]
      rw [Char.ofNat_toNat, ih]
      rfl
    · have hesc : escStrChar c = [c] := by
        rw [escStrChar, if_neg h1, if_neg h2, if_neg h3, if_neg h4,
          if_neg h5, if_neg h6, if_neg h7, if_neg h8]
      rw [hesc]
      simp only [List.singleton_append, List.nil_append]
      rw [pStrBody_plain c _ h1 h2, if_neg (by omega), ih]
      rfl

end JsonFormatter

namespace JsonFormatter

theorem numOkList_mem (xs : List Json) (x : Json) (h : numOkList xs)
    (hx : x ∈ xs) : numOk x := by
  induction xs with
  | nil => cases hx
  | cons y t ih =>
    rw [numOkList] at h
    rcases List.mem_cons.mp hx with rfl | h2
    · exact h.1
    · exact ih h.2 h2

theorem numOkList_of_forall (xs : List Json) (h : ∀ x ∈ xs, numOk x) :
    numOkList xs := by
  induction xs with
  | nil => trivial
  | cons y t ih =>
    exact ⟨h y (List.mem_cons_self y t),
      ih fun x hx => h x (List.mem_cons_of_mem y hx)⟩

theorem numOkProps_mem (ps : List (String × Json)) (p : String × Json)
    (h : numOkProps ps) (hp : p ∈ ps) : numOk p.2 := by
  induction ps with
  | nil => cases hp
  | cons q t ih =>
    rw [numOkProps] at h
    rcases List.mem_cons.mp hp with rfl | h2
    · exact h.1
    · exact ih h.2 h2

theorem numOkProps_of_forall (ps : List (String × Json))
    (h : ∀ p ∈ ps, numOk p.2) : numOkProps ps := by
  induction ps with
  | nil => trivial
  | cons q t ih =>
    exact ⟨h q (List.mem_cons_self q t),
      ih fun p hp => h p (List.mem_cons_of_mem q hp)⟩

theorem foldl_jsSet_mem (pairs : List (String × Json)) :
    ∀ acc p, p ∈ pairs.foldl (fun a m => jsSet a m.1 m.2) acc →
      p ∈ acc ∨ p ∈ pairs := by
  induction pairs with
  | nil => intro acc p hp; exact Or.inl hp
  | cons m t ih =>
    intro acc p hp
    rw [List.foldl_cons] at hp
    rcases ih (jsSet acc m.1 m.2) p hp with h | h
    · rcases mem_jsSet acc m.1 m.2 p h with h2 | h2
      · exact Or.inl h2
      · right
        rw [h2]
        exact List.mem_cons_self m t
    · exact Or.inr (List.mem_cons_of_mem m h)

theorem mkObj_numOk (pairs : List (String × Json))
    (h : ∀ p ∈ pairs, numOk p.2) : numOk (.obj (mkObj pairs)) := by
  refine numOkProps_of_forall _ fun p hp => ?_
  rcases foldl_jsSet_mem pairs [] p hp with h1 | h1
  · cases h1
  · exact h p h1

theorem foldl_jsSet_mem_fun (f : String → Json) (ks : List String) :
    ∀ acc p, p ∈ ks.foldl (fun a k => jsSet a k (f k)) acc →
      p ∈ acc ∨ ∃ k, p.2 = f k := by
  induction ks with
  | nil => intro acc p hp; exact Or.inl hp
  | cons k t ih =>
    intro acc p hp
    rw [List.foldl_cons] at hp
    rcases ih (jsSet acc k (f k)) p hp with h | h
    · rcases mem_jsSet acc k (f k) p h with h2 | h2
      · exact Or.inl h2
      · right
        exact ⟨k, by rw [h2]⟩
    · exact Or.inr h

theorem foldl_jsSet_app (ps : List (String × Json)) :
    ∀ acc, keysNodup ((acc ++ ps).map Prod.fst) = true →
      ps.foldl (fun a m => jsSet a m.1 m.2) acc = acc ++ ps := by
  induction ps with
  | nil => intro acc _; simp
  | cons m t ih =>
    intro acc h
    rw [List.foldl_cons]
    have hnd : ((acc ++ m :: t).map Prod.fst).Nodup :=
      (keysNodup_iff_nodup _).mp h
    rw [List.map_append] at hnd
    have hdisj := (List.nodup_append.mp hnd).2.2
    have hfresh : ∀ p ∈ acc, p.1 ≠ m.1 := by
      intro p hp hc
      refine hdisj (List.mem_map.mpr ⟨p, hp, rfl⟩) ?_
      rw [hc, List.map_cons]
      exact List.mem_cons_self m.1 (t.map Prod.fst)
    rw [jsSet_fresh acc m.1 m.2 hfresh]
    calc t.foldl (fun a p => jsSet a p.1 p.2) (acc ++ [m])
        = (acc ++ [m]) ++ t := by
          refine ih (acc ++ [m]) ?_
          have he : (acc ++ [m]) ++ t = acc ++ m :: t := by simp
          rw [he]
          exact h
      _ = acc ++ m :: t := by simp

theorem mkObj_id (ps : List (String × Json))
    (h : keysNodup (ps.map Prod.fst) = true) : mkObj ps = ps := by
  rw [mkObj]
  have := foldl_jsSet_app ps [] (by simpa using h)
  simpa using this

theorem sortKeys_numOk_aux :
    ∀ (n : Nat) (v : Json), sizeOf v ≤ n → numOk v →
      numOk (sortKeys v) := by
  intro n
  induction n with
  | zero =>
    intro v hs
    exact absurd hs (by cases v <;> simp)
  | succ m ih =>
    intro v hs hv
    cases v with
    | null => trivial
    | bool b => trivial
    | num s => exact hv
    | str s => trivial
    | arr xs =>
      rw [sortKeys, sortKeysList_eq_map]
      refine numOkList_of_forall _ ?_
      intro y hy
      obtain ⟨x, hx, rfl⟩ := List.mem_map.mp hy
      have hsx : sizeOf x ≤ m := by
        have := sizeOf_mem_lt xs x hx
        omega
      exact ih x hsx (numOkList_mem xs x hv hx)
    | obj ps =>
      rw [sortKeys]
      refine numOkProps_of_forall _ fun p hp => ?_
      rcases foldl_jsSet_mem_fun _ _ [] p hp with h1 | ⟨k, hk⟩
      · cases h1
      · rw [hk]
        cases hgv : getVal (sortKeysProps ps) k with
        | none => trivial
        | some w =>
          have hmem := getVal_mem _ _ _ hgv
          rw [sortKeysProps_eq_map] at hmem
          obtain ⟨q, hq, he⟩ := List.mem_map.mp hmem
          have hw : w = sortKeys q.2 := congrArg Prod.snd he.symm
          rw [Option.getD_some, hw]
          have hsx : sizeOf q.2 ≤ m := by
            have := sizeOf_getVal_lt ps q.1 q.2 (by simpa using hq)
            omega
          exact ih q.2 hsx (numOkProps_mem ps q hv hq)

theorem jsEnum_numOk_aux :
    ∀ (n : Nat) (v : Json), sizeOf v ≤ n → numOk v →
      numOk (jsEnum v) := by
  intro n
  induction n with
  | zero =>
    intro v hs
    exact absurd hs (by cases v <;> simp)
  | succ m ih =>
    intro v hs hv
    cases v with
    | null => trivial
    | bool b => trivial
    | num s => exact hv
    | str s => trivial
    | arr xs =>
      rw [jsEnum, jsEnumList_eq_map]
      refine numOkList_of_forall _ ?_
      intro y hy
      obtain ⟨x, hx, rfl⟩ := List.mem_map.mp hy
      have hsx : sizeOf x ≤ m := by
        have := sizeOf_mem_lt xs x hx
        omega
      exact ih x hsx (numOkList_mem xs x hv hx)
    | obj ps =>
      rw [jsEnum]
      refine numOkProps_of_forall _ fun p hp => ?_
      have h2 := (jsOrderProps_perm _).subset hp
      rw [jsEnumProps_eq_map] at h2
      obtain ⟨q, hq, he⟩ := List.mem_map.mp h2
      have hval : p.2 = jsEnum q.2 := congrArg Prod.snd he.symm
      rw [hval]
      have hsx : sizeOf q.2 ≤ m := by
        have := sizeOf_getVal_lt ps q.1 q.2 (by simpa using hq)
        omega
      exact ih q.2 hsx (numOkProps_mem ps q hv hq)

end JsonFormatter

namespace JsonFormatter

theorem parser_numOk (fuel : Nat) :
    (∀ cs v r, pVal fuel cs = some (v, r) → numOk v) ∧
    (∀ cs acc v r, (∀ x ∈ acc, numOk x) →
      pArrLoop fuel cs acc = some (v, r) → numOk v) ∧
    (∀ cs acc v r, (∀ p ∈ acc, numOk p.2) →
      pObjLoop fuel cs acc = some (v, r) → numOk v) := by
  induction fuel with
  | zero =>
    refine ⟨?_, ?_, ?_⟩
    · intro cs v r h
      exact Option.noConfusion h
    · intro cs acc v r _ h
      exact Option.noConfusion h
    · intro cs acc v r _ h
      exact Option.noConfusion h
  | succ m ih =>
    obtain ⟨ihV, ihA, ihO⟩ := ih
    refine ⟨?_, ?_, ?_⟩
    · intro cs v r h
      cases cs with
      | nil => exact Option.noConfusion h
      | cons c t =>
        rw [pVal.eq_def] at h
        repeat' split at h
        all_goals try injections
        all_goals try subst_vars
        all_goals
          first
          | exact trivial
          | exact Option.noConfusion h
          | exact (pNumber_spec _ _ _ (by assumption)).1
          | (simp only [Option.some.injEq, Prod.mk.injEq] at h;
             obtain ⟨h1, h2⟩ := h; subst h1;
             first
             | exact trivial
             | exact (pNumber_spec _ _ _ (by assumption)).1)
          | exact ihA _ _ _ _ (fun x hx => absurd hx (by simp)) h
          | exact ihO _ _ _ _ (fun p hp => absurd hp (by simp)) h
    · intro cs acc v r hacc h
      rw [pArrLoop.eq_def] at h
      repeat' split at h
      all_goals try injections
      all_goals try subst_vars
      all_goals
        first
        | exact Option.noConfusion h
        | (refine ihA _ _ _ _ (fun x hx => ?_) h;
           rcases List.mem_append.mp hx with h2 | h2 <;>
             first
             | exact hacc _ h2
             | (simp only [List.mem_singleton] at h2; subst h2;
                exact ihV _ _ _ (by assumption)))
        | (simp only [Option.some.injEq, Prod.mk.injEq] at h;
           obtain ⟨h1, h2⟩ := h; subst h1;
           refine numOkList_of_forall _ (fun x hx => ?_);
           rcases List.mem_append.mp hx with h2 | h2 <;>
             first
             | exact hacc _ h2
             | (simp only [List.mem_singleton] at h2; subst h2;
                exact ihV _ _ _ (by assumption)))
        | (refine numOkList_of_forall _ (fun x hx => ?_);
           rcases List.mem_append.mp hx with h2 | h2 <;>
             first
             | exact hacc _ h2
             | (simp only [List.mem_singleton] at h2; subst h2;
                exact ihV _ _ _ (by assumption)))
    · intro cs acc v r hacc h
      rw [pObjLoop.eq_def] at h
      repeat' split at h
      all_goals try injections
      all_goals try subst_vars
      all_goals
        first
        | exact Option.noConfusion h
        | (refine ihO _ _ _ _ (fun p hp => ?_) h;
           rcases List.mem_append.mp hp with h2 | h2 <;>
             first
             | exact hacc _ h2
             | (simp only [List.mem_singleton] at h2; subst h2;
                exact ihV _ _ _ (by assumption)))
        | (simp only [Option.some.injEq, Prod.mk.injEq] at h;
           obtain ⟨h1, h2⟩ := h; subst h1;
           refine mkObj_numOk _ (fun p hp => ?_);
           rcases List.mem_append.mp hp with h2 | h2 <;>
             first
             | exact hacc _ h2
             | (simp only [List.mem_singleton] at h2; subst h2;
                exact ihV _ _ _ (by assumption)))
        | (refine mkObj_numOk _ (fun p hp => ?_);
           rcases List.mem_append.mp hp with h2 | h2 <;>
             first
             | exact hacc _ h2
             | (simp only [List.mem_singleton] at h2; subst h2;
                exact ihV _ _ _ (by assumption)))

theorem jparse_numOk (t : String) (v : Json) (h : jparse t = some v) :
    numOk v := by
  rw [jparse] at h
  split at h
  · rename_i v2 r2 hp
    split at h
    · simp only [Option.some.injEq] at h
      subst h
      exact (parser_numOk _).1 _ _ _ hp
    · exact Option.noConfusion h
  · exact Option.noConfusion h

end JsonFormatter

namespace JsonFormatter

theorem pfuel_pos (u : Json) : 1 ≤ pfuel u := by
  cases u with
  | arr xs =>
    cases xs with
    | nil => exact Nat.le_refl 1
    | cons x t => exact Nat.le_add_right 1 _
  | obj ps =>
    cases ps with
    | nil => exact Nat.le_refl 1
    | cons p t => exact Nat.le_add_right 1 _
  | null => exact Nat.le_refl 1
  | bool b => exact Nat.le_refl 1
  | num s => exact Nat.le_refl 1
  | str s => exact Nat.le_refl 1

theorem pfuelArr_pos (xs : List Json) : 1 ≤ pfuelArr xs := by
  cases xs <;> simp [pfuelArr]

theorem pfuelObj_pos (ps : List (String × Json)) : 1 ≤ pfuelObj ps := by
  cases ps <;> simp [pfuelObj]

theorem prArrItems_eq (x : Json) (xs : List Json) (d e : Nat)
    (z : List Char) :
    prArrItems (x :: xs) d ++ '\n' :: indentChars e ++ ']' :: z =
      indentChars d ++ (pr x d ++ arrRest xs d e z) := by
  cases xs with
  | nil => rw [prArrItems, arrRest]; simp
  | cons y ys => rw [prArrItems, arrRest]; simp

theorem prObjItems_eq (k : String) (v : Json) (ps : List (String × Json))
    (d e : Nat) (z : List Char) :
    prObjItems ((k, v) :: ps) d ++ '\n' :: indentChars e ++ '\x7d' :: z =
      indentChars d ++
        (quoteStr k ++ ':' :: ' ' :: (pr v d ++ objRest ps d e z)) := by
  cases ps with
  | nil => rw [prObjItems, objRest]; simp
  | cons q qs => rw [prObjItems, objRest]; simp

theorem prArrItems_split (y : Json) (ys : List Json) (d e : Nat)
    (z : List Char) :
    prArrItems (y :: ys) d ++ '\n' :: (indentChars e ++ ']' :: z) =
      indentChars d ++ (pr y d ++ arrRest ys d e z) := by
  have h := prArrItems_eq y ys d e z
  rwa [List.append_assoc, List.cons_append] at h

theorem prObjItems_split (k : String) (v : Json)
    (ps : List (String × Json)) (d e : Nat) (z : List Char) :
    prObjItems ((k, v) :: ps) d ++ '\n' :: (indentChars e ++ '\x7d' :: z) =
      indentChars d ++
        (quoteStr k ++ ':' :: ' ' :: (pr v d ++ objRest ps d e z)) := by
  have h := prObjItems_eq k v ps d e z
  rwa [List.append_assoc, List.cons_append] at h

theorem numDelim_nil : NumDelim [] := by
  intro c t h
  exact List.noConfusion h

theorem numDelim_arrRest (xs : List Json) (d e : Nat) (z : List Char) :
    NumDelim (arrRest xs d e z) := by
  intro c t h
  cases xs with
  | nil =>
    rw [arrRest] at h
    obtain ⟨h1, -⟩ := List.cons.inj h
    subst h1
    exact ⟨by decide, by decide, by decide, by decide⟩
  | cons y ys =>
    rw [arrRest] at h
    obtain ⟨h1, -⟩ := List.cons.inj h
    subst h1
    exact ⟨by decide, by decide, by decide, by decide⟩

theorem numDelim_objRest (ps : List (String × Json)) (d e : Nat)
    (z : List Char) : NumDelim (objRest ps d e z) := by
  intro c t h
  cases ps with
  | nil =>
    rw [objRest] at h
    obtain ⟨h1, -⟩ := List.cons.inj h
    subst h1
    exact ⟨by decide, by decide, by decide, by decide⟩
  | cons q qs =>
    rw [objRest] at h
    obtain ⟨h1, -⟩ := List.cons.inj h
    subst h1
    exact ⟨by decide, by decide, by decide, by decide⟩

theorem skipWs_replicate (n : Nat) (r : List Char) :
    skipWs (List.replicate n ' ' ++ r) = skipWs r := by
  induction n with
  | zero => rfl
  | succ m ih =>
    rw [List.replicate_succ, List.cons_append, skipWs]
    simp only [if_pos (by decide : isWsChar ' ' = true)]
    exact ih

theorem skipWs_indent (d : Nat) (r : List Char) :
    skipWs (indentChars d ++ r) = skipWs r :=
  skipWs_replicate (2 * d) r

theorem skipWs_newline (r : List Char) : skipWs ('\n' :: r) = skipWs r := by
  rw [skipWs]
  simp only [if_pos (by decide : isWsChar '\n' = true)]

theorem skipWs_cons_of_not (c : Char) (r : List Char)
    (h : isWsChar c = false) : skipWs (c :: r) = c :: r := by
  rw [skipWs, h]
  simp

/-- The head of a number lexeme is a minus sign or a digit. -/
theorem numShape_head (l : List Char) (h : NumShape l) :
    ∃ c t, l = c :: t ∧ (c = '-' ∨ c.isDigit = true) := by
  obtain ⟨sign, intp, frac, expp, rfl, hs, hi, -, -⟩ := h
  rcases hs with rfl | rfl
  · rcases hi with rfl | ⟨c, ds, rfl, hc, -, -⟩
    · exact ⟨'0', frac ++ expp, by simp, Or.inr (by decide)⟩
    · exact ⟨c, ds ++ frac ++ expp, by simp, Or.inr hc⟩
  · exact ⟨'-', intp ++ frac ++ expp, by simp, Or.inl rfl⟩

/-- The first character of any printed value: never whitespace and never
a closing bracket. -/
theorem pr_head (u : Json) (d : Nat) (h : numOk u) :
    ∃ c t, pr u d = c :: t ∧ isWsChar c = false ∧ c ≠ ']' ∧ c ≠ '\x7d' := by
  cases u with
  | null => refine ⟨'n', _, rfl, ?_, ?_, ?_⟩ <;> decide
  | bool b =>
    cases b with
    | true => refine ⟨'t', _, rfl, ?_, ?_, ?_⟩ <;> decide
    | false => refine ⟨'f', _, rfl, ?_, ?_, ?_⟩ <;> decide
  | num lex =>
    obtain ⟨c, t, he, hc⟩ := numShape_head lex.data h
    refine ⟨c, t, he, ?_, ?_, ?_⟩
    · rcases hc with rfl | hd
      · decide
      · have h1 : c ≠ ' ' := isDigit_ne c ' ' hd (by decide)
        have h2 : c ≠ '\t' := isDigit_ne c '\t' hd (by decide)
        have h3 : c ≠ '\n' := isDigit_ne c '\n' hd (by decide)
        have h4 : c ≠ '\r' := isDigit_ne c '\r' hd (by decide)
        rw [isWsChar]
        simp [h1, h2, h3, h4]
    · rcases hc with rfl | hd
      · decide
      · exact isDigit_ne c ']' hd (by decide)
    · rcases hc with rfl | hd
      · decide
      · exact isDigit_ne c '\x7d' hd (by decide)
  | str s => refine ⟨'"', _, rfl, ?_, ?_, ?_⟩ <;> decide
  | arr xs =>
    cases xs with
    | nil => refine ⟨'[', _, rfl, ?_, ?_, ?_⟩ <;> decide
    | cons x t => refine ⟨'[', _, rfl, ?_, ?_, ?_⟩ <;> decide
  | obj ps =>
    cases ps with
    | nil => refine ⟨'\x7b', _, rfl, ?_, ?_, ?_⟩ <;> decide
    | cons p t => refine ⟨'\x7b', _, rfl, ?_, ?_, ?_⟩ <;> decide

end JsonFormatter

namespace JsonFormatter

theorem pVal_null (fuel : Nat) (z : List Char) :
    pVal (fuel + 1) ('n' :: 'u' :: 'l' :: 'l' :: z) = some (.null, z) := rfl

theorem pVal_true (fuel : Nat) (z : List Char) :
    pVal (fuel + 1) ('t' :: 'r' :: 'u' :: 'e' :: z) =
      some (.bool true, z) := rfl

theorem pVal_false (fuel : Nat) (z : List Char) :
    pVal (fuel + 1) ('f' :: 'a' :: 'l' :: 's' :: 'e' :: z) =
      some (.bool false, z) := rfl

theorem pVal_str (fuel : Nat) (cs : List Char) :
    pVal (fuel + 1) ('"' :: cs) =
      match pStrBody cs with
      | some (s, r) => some (.str ⟨s⟩, r)
      | none => none := rfl

theorem pVal_arr (fuel : Nat) (cs : List Char) :
    pVal (fuel + 1) ('[' :: cs) =
      match skipWs cs with
      | ']' :: r => some (.arr [], r)
      | cs1 => pArrLoop fuel cs1 [] := rfl

theorem pVal_obj (fuel : Nat) (cs : List Char) :
    pVal (fuel + 1) ('\x7b' :: cs) =
      match skipWs cs with
      | '\x7d' :: r => some (.obj [], r)
      | cs1 => pObjLoop fuel cs1 [] := rfl

theorem pVal_arr_go (fuel : Nat) (cs : List Char) (c : Char) (t : List Char)
    (hsk : skipWs cs = c :: t) (hne : ¬c = ']') :
    pVal (fuel + 1) ('[' :: cs) = pArrLoop fuel (c :: t) [] := by
  rw [pVal_arr, hsk]
  split
  · rename_i r heq
    obtain ⟨h1, -⟩ := List.cons.inj heq
    exact absurd h1 hne
  · rfl

theorem pVal_obj_go (fuel : Nat) (cs : List Char) (c : Char) (t : List Char)
    (hsk : skipWs cs = c :: t) (hne : ¬c = '\x7d') :
    pVal (fuel + 1) ('\x7b' :: cs) = pObjLoop fuel (c :: t) [] := by
  rw [pVal_obj, hsk]
  split
  · rename_i r heq
    obtain ⟨h1, -⟩ := List.cons.inj heq
    exact absurd h1 hne
  · rfl

theorem pVal_num (fuel : Nat) (c : Char) (cs : List Char)
    (h1 : ¬c = 'n') (h2 : ¬c = 't') (h3 : ¬c = 'f') (h4 : ¬c = '"')
    (h5 : ¬c = '[') (h6 : ¬c = '\x7b') :
    pVal (fuel + 1) (c :: cs) =
      match pNumber (c :: cs) with
      | some (lex, r) => some (.num ⟨lex⟩, r)
      | none => none := by
  rw [pVal.eq_def]
  simp only [if_neg h1, if_neg h2, if_neg h3, if_neg h4, if_neg h5,
    if_neg h6]

theorem pArrLoop_succ (fuel : Nat) (cs : List Char) (acc : List Json) :
    pArrLoop (fuel + 1) cs acc =
      match pVal fuel cs with
      | none => none
      | some (v, r) =>
        match skipWs r with
        | ',' :: r2 => pArrLoop fuel (skipWs r2) (acc ++ [v])
        | ']' :: r2 => some (.arr (acc ++ [v]), r2)
        | _ => none := rfl

theorem pObjLoop_str (fuel : Nat) (cs1 : List Char)
    (acc : List (String × Json)) :
    pObjLoop (fuel + 1) ('"' :: cs1) acc =
      match pStrBody cs1 with
      | none => none
      | some (k, r) =>
        match skipWs r with
        | ':' :: r2 =>
          match pVal fuel (skipWs r2) with
          | none => none
          | some (v, r3) =>
            match skipWs r3 with
            | ',' :: r4 => pObjLoop fuel (skipWs r4) (acc ++ [(⟨k⟩, v)])
            | '\x7d' :: r4 => some (.obj (mkObj (acc ++ [(⟨k⟩, v)])), r4)
            | _ => none
        | _ => none := rfl

end JsonFormatter

namespace JsonFormatter

theorem parse_pr (fuel : Nat) :
    (∀ u d z, pfuel u ≤ fuel → numOk u → nodupKeys u = true → NumDelim z →
      pVal fuel (pr u d ++ z) = some (u, z)) ∧
    (∀ x xs acc d e z, pfuelArr (x :: xs) ≤ fuel → numOkList (x :: xs) →
      nodupKeysList (x :: xs) = true → NumDelim z →
      pArrLoop fuel (pr x d ++ arrRest xs d e z) acc =
        some (.arr (acc ++ x :: xs), z)) ∧
    (∀ k v ps acc d e z, pfuelObj ((k, v) :: ps) ≤ fuel →
      numOkProps ((k, v) :: ps) → nodupKeysProps ((k, v) :: ps) = true →
      NumDelim z →
      pObjLoop fuel
        (quoteStr k ++ ':' :: ' ' :: (pr v d ++ objRest ps d e z)) acc =
        some (.obj (mkObj (acc ++ (k, v) :: ps)), z)) := by
  induction fuel with
  | zero =>
    refine ⟨fun u d z hf _ _ _ => absurd hf ?_,
      fun x xs acc d e z hf _ _ _ => absurd hf ?_,
      fun k v ps acc d e z hf _ _ _ => absurd hf ?_⟩
    · have := pfuel_pos u; omega
    · have := pfuelArr_pos (x :: xs); omega
    · have := pfuelObj_pos ((k, v) :: ps); omega
  | succ m ih =>
    obtain ⟨ihV, ihA, ihO⟩ := ih
    refine ⟨?_, ?_, ?_⟩
    · intro u d z hf hnum hnd hz
      cases u with
      | null => exact pVal_null m z
      | bool b =>
        cases b with
        | false => exact pVal_false m z
        | true => exact pVal_true m z
      | num lex =>
        have hsh : NumShape lex.data := hnum
        obtain ⟨c, t, he, hc⟩ := numShape_head lex.data hsh
        have hne : ∀ x : Char, x.toNat < 48 ∨ 57 < x.toNat → x ≠ '-' →
            ¬c = x := by
          intro x hx hxm
          rcases hc with rfl | hd
          · intro hcc
            exact hxm hcc.symm
          · exact isDigit_ne c x hd hx
        have htext : pr (.num lex) d ++ z = c :: (t ++ z) := by
          rw [show pr (.num lex) d = lex.data from rfl, he,
            List.cons_append]
        rw [htext, pVal_num m c (t ++ z)
          (hne 'n' (by decide) (by decide))
          (hne 't' (by decide) (by decide))
          (hne 'f' (by decide) (by decide))
          (hne '"' (by decide) (by decide))
          (hne '[' (by decide) (by decide))
          (hne '\x7b' (by decide) (by decide))]
        have hnb : pNumber (c :: (t ++ z)) = some (lex.data, z) := by
          rw [show c :: (t ++ z) = lex.data ++ z from by
            rw [he, List.cons_append]]
          exact pNumber_append lex.data z hsh hz
        rw [hnb]
      | str s =>
        have htext : pr (.str s) d ++ z =
            '"' :: ((s.data.map escStrChar).flatten ++ '"' :: z) := by
          rw [show pr (.str s) d = quoteStr s from rfl, quoteStr]
          simp
        rw [htext, pVal_str, pStrBody_roundtrip]
      | arr xs =>
        cases xs with
        | nil => rfl
        | cons x xs' =>
          have hnumL : numOkList (x :: xs') := hnum
          obtain ⟨cx, tx, hex, hwx, hbx, -⟩ := pr_head x (d + 1) hnumL.1
          have hsplit : pr (.arr (x :: xs')) d ++ z =
              '[' :: '\n' :: (indentChars (d + 1) ++
                (pr x (d + 1) ++ arrRest xs' (d + 1) d z)) := by
            rw [show pr (.arr (x :: xs')) d = '[' :: '\n' ::
              (prArrItems (x :: xs') (d + 1) ++
                '\n' :: indentChars d ++ [']']) from rfl,
              ← prArrItems_eq x xs' (d + 1) d z]
            simp
          have hsk : skipWs ('\n' :: (indentChars (d + 1) ++
              (pr x (d + 1) ++ arrRest xs' (d + 1) d z))) =
              cx :: (tx ++ arrRest xs' (d + 1) d z) := by
            rw [skipWs_newline, skipWs_indent, hex, List.cons_append]
            exact skipWs_cons_of_not cx _ hwx
          rw [hsplit, pVal_arr_go m _ cx (tx ++ arrRest xs' (d + 1) d z)
            hsk hbx]
          have hback : cx :: (tx ++ arrRest xs' (d + 1) d z) =
              pr x (d + 1) ++ arrRest xs' (d + 1) d z := by
            rw [hex, List.cons_append]
          have hfA : pfuelArr (x :: xs') ≤ m := by
            have h2 : pfuel (.arr (x :: xs')) =
                1 + pfuelArr (x :: xs') := rfl
            omega
          rw [hback, ihA x xs' [] (d + 1) d z hfA hnumL hnd hz]
          rfl
      | obj ps =>
        cases ps with
        | nil => rfl
        | cons p ps' =>
          obtain ⟨k, v⟩ := p
          have hnumP : numOkProps ((k, v) :: ps') := hnum
          rw [show nodupKeys (.obj ((k, v) :: ps')) =
            (keysNodup (((k, v) :: ps').map Prod.fst) &&
              nodupKeysProps ((k, v) :: ps')) from rfl] at hnd
          simp only [Bool.and_eq_true] at hnd
          obtain ⟨hndK, hndP⟩ := hnd
          have hsplit : pr (.obj ((k, v) :: ps')) d ++ z =
              '\x7b' :: '\n' :: (indentChars (d + 1) ++
                (quoteStr k ++ ':' :: ' ' ::
                  (pr v (d + 1) ++ objRest ps' (d + 1) d z))) := by
            rw [show pr (.obj ((k, v) :: ps')) d = '\x7b' :: '\n' ::
              (prObjItems ((k, v) :: ps') (d + 1) ++
                '\n' :: indentChars d ++ ['\x7d']) from rfl,
              ← prObjItems_eq k v ps' (d + 1) d z]
            simp
          have hq : quoteStr k ++ ':' :: ' ' ::
              (pr v (d + 1) ++ objRest ps' (d + 1) d z) =
              '"' :: ((k.data.map escStrChar).flatten ++ '"' ::
                (':' :: ' ' ::
                  (pr v (d + 1) ++ objRest ps' (d + 1) d z))) := by
            rw [quoteStr]
            simp
          have hsk : skipWs ('\n' :: (indentChars (d + 1) ++
              (quoteStr k ++ ':' :: ' ' ::
                (pr v (d + 1) ++ objRest ps' (d + 1) d z)))) =
              '"' :: ((k.data.map escStrChar).flatten ++ '"' ::
                (':' :: ' ' ::
                  (pr v (d + 1) ++ objRest ps' (d + 1) d z))) := by
            rw [skipWs_newline, skipWs_indent, hq]
            exact skipWs_cons_of_not _ _ (by decide)
          rw [hsplit, pVal_obj_go m _ '"' _ hsk (by decide)]
          have hfO : pfuelObj ((k, v) :: ps') ≤ m := by
            have h2 : pfuel (.obj ((k, v) :: ps')) =
                1 + pfuelObj ((k, v) :: ps') := rfl
            omega
          have hback : ('"' :: ((k.data.map escStrChar).flatten ++ '"' ::
              (':' :: ' ' ::
                (pr v (d + 1) ++ objRest ps' (d + 1) d z)))) =
              quoteStr k ++ ':' :: ' ' ::
                (pr v (d + 1) ++ objRest ps' (d + 1) d z) := hq.symm
          rw [hback, ihO k v ps' [] (d + 1) d z hfO hnumP hndP hz]
          simp only [List.nil_append]
          rw [mkObj_id _ hndK]
    · intro x xs acc d e z hf hnum hnd hz
      rw [show nodupKeysList (x :: xs) =
        (nodupKeys x && nodupKeysList xs) from rfl] at hnd
      simp only [Bool.and_eq_true] at hnd
      obtain ⟨hnd1, hnd2⟩ := hnd
      have hfx : pfuel x ≤ m := by
        have h1 := Nat.le_max_left (pfuel x) (pfuelArr xs)
        have h2 : pfuelArr (x :: xs) =
            1 + max (pfuel x) (pfuelArr xs) := rfl
        omega
      rw [pArrLoop_succ, ihV x d (arrRest xs d e z) hfx hnum.1 hnd1
        (numDelim_arrRest xs d e z)]
      show (match skipWs (arrRest xs d e z) with
        | ',' :: r2 => pArrLoop m (skipWs r2) (acc ++ [x])
        | ']' :: r2 => some (.arr (acc ++ [x]), r2)
        | _ => none) = some (.arr (acc ++ x :: xs), z)
      cases xs with
      | nil =>
        have hsk : skipWs (arrRest ([] : List Json) d e z) = ']' :: z := by
          rw [arrRest, List.cons_append, skipWs_newline, skipWs_indent]
          exact skipWs_cons_of_not _ _ (by decide)
        rw [hsk]
        rfl
      | cons y ys =>
        have hsk : skipWs (arrRest (y :: ys) d e z) =
            ',' :: '\n' :: (prArrItems (y :: ys) d ++
              '\n' :: (indentChars e ++ ']' :: z)) := by
          rw [arrRest]
          simp only [List.cons_append, List.append_assoc]
          exact skipWs_cons_of_not _ _ (by decide)
        rw [hsk]
        show pArrLoop m (skipWs ('\n' :: (prArrItems (y :: ys) d ++
            '\n' :: (indentChars e ++ ']' :: z)))) (acc ++ [x]) =
          some (.arr (acc ++ x :: y :: ys), z)
        obtain ⟨cy, ty, hey, hwy, -, -⟩ := pr_head y d hnum.2.1
        have hsk2 : skipWs ('\n' :: (prArrItems (y :: ys) d ++
            '\n' :: (indentChars e ++ ']' :: z))) =
            pr y d ++ arrRest ys d e z := by
          rw [skipWs_newline, prArrItems_split y ys d e z, skipWs_indent,
            hey, List.cons_append, skipWs_cons_of_not cy _ hwy,
            ← List.cons_append, ← hey]
        have hfA : pfuelArr (y :: ys) ≤ m := by
          have h1 := Nat.le_max_right (pfuel x) (pfuelArr (y :: ys))
          have h2 : pfuelArr (x :: y :: ys) =
              1 + max (pfuel x) (pfuelArr (y :: ys)) := rfl
          omega
        rw [hsk2, ihA y ys (acc ++ [x]) d e z hfA hnum.2 hnd2 hz,
          List.append_assoc]
        rfl
    · intro k v ps acc d e z hf hnum hnd hz
      rw [show nodupKeysProps ((k, v) :: ps) =
        (nodupKeys v && nodupKeysProps ps) from rfl] at hnd
      simp only [Bool.and_eq_true] at hnd
      obtain ⟨hndv, hnd2⟩ := hnd
      have hfv : pfuel v ≤ m := by
        have h1 := Nat.le_max_left (pfuel v) (pfuelObj ps)
        have h2 : pfuelObj ((k, v) :: ps) =
            1 + max (pfuel v) (pfuelObj ps) := rfl
        omega
      have hq : quoteStr k ++ ':' :: ' ' ::
          (pr v d ++ objRest ps d e z) =
          '"' :: ((k.data.map escStrChar).flatten ++ '"' ::
            (':' :: ' ' :: (pr v d ++ objRest ps d e z))) := by
        rw [quoteStr]
        simp
      rw [hq, pObjLoop_str, pStrBody_roundtrip]
      show (match pVal m (skipWs (pr v d ++ objRest ps d e z)) with
        | none => none
        | some (v2, r3) =>
          match skipWs r3 with
          | ',' :: r4 => pObjLoop m (skipWs r4) (acc ++ [(k, v2)])
          | '\x7d' :: r4 =>
            some (.obj (mkObj (acc ++ [(k, v2)])), r4)
          | _ => none) =
        some (.obj (mkObj (acc ++ (k, v) :: ps)), z)
      obtain ⟨cv, tv, hev, hwv, -, -⟩ := pr_head v d hnum.1
      have hskv : skipWs (pr v d ++ objRest ps d e z) =
          pr v d ++ objRest ps d e z := by
        rw [hev, List.cons_append]
        exact skipWs_cons_of_not cv _ hwv
      rw [hskv, ihV v d (objRest ps d e z) hfv hnum.1 hndv
        (numDelim_objRest ps d e z)]
      show (match skipWs (objRest ps d e z) with
        | ',' :: r4 => pObjLoop m (skipWs r4) (acc ++ [(k, v)])
        | '\x7d' :: r4 => some (.obj (mkObj (acc ++ [(k, v)])), r4)
        | _ => none) = some (.obj (mkObj (acc ++ (k, v) :: ps)), z)
      cases ps with
      | nil =>
        have hsk4 : skipWs (objRest ([] : List (String × Json)) d e z) =
            '\x7d' :: z := by
          rw [objRest, List.cons_append, skipWs_newline, skipWs_indent]
          exact skipWs_cons_of_not _ _ (by decide)
        rw [hsk4]
        rfl
      | cons q qs =>
        obtain ⟨k2, v2⟩ := q
        have hsk4 : skipWs (objRest ((k2, v2) :: qs) d e z) =
            ',' :: '\n' :: (prObjItems ((k2, v2) :: qs) d ++
              '\n' :: (indentChars e ++ '\x7d' :: z)) := by
          rw [objRest]
          simp only [List.cons_append, List.append_assoc]
          exact skipWs_cons_of_not _ _ (by decide)
        rw [hsk4]
        show pObjLoop m (skipWs ('\n' :: (prObjItems ((k2, v2) :: qs) d ++
            '\n' :: (indentChars e ++ '\x7d' :: z)))) (acc ++ [(k, v)]) =
          some (.obj (mkObj (acc ++ (k, v) :: (k2, v2) :: qs)), z)
        have hq2 : quoteStr k2 ++ ':' :: ' ' ::
            (pr v2 d ++ objRest qs d e z) =
            '"' :: ((k2.data.map escStrChar).flatten ++ '"' ::
              (':' :: ' ' :: (pr v2 d ++ objRest qs d e z))) := by
          rw [quoteStr]
          simp
        have hsk5 : skipWs ('\n' :: (prObjItems ((k2, v2) :: qs) d ++
            '\n' :: (indentChars e ++ '\x7d' :: z))) =
            quoteStr k2 ++ ':' :: ' ' ::
              (pr v2 d ++ objRest qs d e z) := by
          rw [skipWs_newline, prObjItems_split k2 v2 qs d e z,
            skipWs_indent, hq2, skipWs_cons_of_not _ _ (by decide),
            ← hq2]
        have hfO : pfuelObj ((k2, v2) :: qs) ≤ m := by
          have h1 := Nat.le_max_right (pfuel v) (pfuelObj ((k2, v2) :: qs))
          have h2 : pfuelObj ((k, v) :: (k2, v2) :: qs) =
              1 + max (pfuel v) (pfuelObj ((k2, v2) :: qs)) := rfl
          omega
        rw [hsk5, ihO k2 v2 qs (acc ++ [(k, v)]) d e z hfO hnum.2 hnd2 hz,
          List.append_assoc]
        rfl

end JsonFormatter

namespace JsonFormatter

theorem pfuel_le_aux : ∀ n : Nat,
    (∀ u : Json, sizeOf u ≤ n → ∀ d, pfuel u ≤ (pr u d).length + 1) ∧
    (∀ xs : List Json, sizeOf xs ≤ n → ∀ d,
      pfuelArr xs ≤ (prArrItems xs d).length + 2) ∧
    (∀ ps : List (String × Json), sizeOf ps ≤ n → ∀ d,
      pfuelObj ps ≤ (prObjItems ps d).length + 2) := by
  intro n
  induction n with
  | zero =>
    refine ⟨fun u hs => absurd hs (by cases u <;> simp),
      fun xs hs => absurd hs (by cases xs <;> simp),
      fun ps hs => absurd hs (by cases ps <;> simp)⟩
  | succ m ih =>
    obtain ⟨ih1, ih2, ih3⟩ := ih
    refine ⟨?_, ?_, ?_⟩
    · intro u hs d
      cases u with
      | null => simp [pfuel]
      | bool b => simp [pfuel]
      | num lex => simp [pfuel]
      | str s => simp [pfuel]
      | arr xs =>
        cases xs with
        | nil => simp [pfuel, pr]
        | cons x xs' =>
          have hsz : sizeOf (x :: xs') ≤ m := by
            have h2 : sizeOf (Json.arr (x :: xs')) =
                1 + sizeOf (x :: xs') := by simp
            omega
          have hb := ih2 (x :: xs') hsz (d + 1)
          have e1 : pfuel (.arr (x :: xs')) =
              1 + pfuelArr (x :: xs') := rfl
          have e2 : pr (.arr (x :: xs')) d = '[' :: '\n' ::
              (prArrItems (x :: xs') (d + 1) ++
                '\n' :: indentChars d ++ [']']) := rfl
          rw [e1, e2]
          simp only [List.length_cons, List.length_append,
            indentChars, List.length_replicate]
          omega
      | obj ps =>
        cases ps with
        | nil => simp [pfuel, pr]
        | cons p ps' =>
          have hsz : sizeOf (p :: ps') ≤ m := by
            have h2 : sizeOf (Json.obj (p :: ps')) =
                1 + sizeOf (p :: ps') := by simp
            omega
          have hb := ih3 (p :: ps') hsz (d + 1)
          obtain ⟨k, v⟩ := p
          have e1 : pfuel (.obj ((k, v) :: ps')) =
              1 + pfuelObj ((k, v) :: ps') := rfl
          have e2 : pr (.obj ((k, v) :: ps')) d = '\x7b' :: '\n' ::
              (prObjItems ((k, v) :: ps') (d + 1) ++
                '\n' :: indentChars d ++ ['\x7d']) := rfl
          rw [e1, e2]
          simp only [List.length_cons, List.length_append,
            indentChars, List.length_replicate]
          omega
    · intro xs hs d
      cases xs with
      | nil => simp [pfuelArr, prArrItems]
      | cons x xs' =>
        have hszx : sizeOf x ≤ m := by
          have h2 : sizeOf (x :: xs') = 1 + sizeOf x + sizeOf xs' := by
            simp
          have h3 : 0 < sizeOf xs' := by cases xs' <;> simp
          omega
        have h1 := ih1 x hszx d
        cases xs' with
        | nil =>
          have e1 : pfuelArr [x] = 1 + max (pfuel x) (pfuelArr []) := rfl
          have e2 : prArrItems [x] d = indentChars d ++ pr x d := rfl
          have e3 : pfuelArr ([] : List Json) = 1 := rfl
          have hm : max (pfuel x) (pfuelArr []) ≤ (pr x d).length + 1 :=
            Nat.max_le.mpr ⟨h1, by omega⟩
          rw [e1, e2]
          simp only [List.length_append, indentChars,
            List.length_replicate]
          omega
        | cons y ys =>
          have hszr : sizeOf (y :: ys) ≤ m := by
            have h2 : sizeOf (x :: y :: ys) =
                1 + sizeOf x + sizeOf (y :: ys) := by simp
            have h3 : 0 < sizeOf x := by cases x <;> simp
            omega
          have h2 := ih2 (y :: ys) hszr d
          have e1 : pfuelArr (x :: y :: ys) =
              1 + max (pfuel x) (pfuelArr (y :: ys)) := rfl
          have e2 : prArrItems (x :: y :: ys) d =
              indentChars d ++ pr x d ++
                ',' :: '\n' :: prArrItems (y :: ys) d := rfl
          have hm : max (pfuel x) (pfuelArr (y :: ys)) ≤
              (pr x d).length + (prArrItems (y :: ys) d).length + 2 :=
            Nat.max_le.mpr ⟨by omega, by omega⟩
          rw [e1, e2]
          simp only [List.length_append, List.length_cons, indentChars,
            List.length_replicate]
          omega
    · intro ps hs d
      cases ps with
      | nil => simp [pfuelObj, prObjItems]
      | cons p ps' =>
        obtain ⟨k, v⟩ := p
        have hszv : sizeOf v ≤ m := by
          have h2 : sizeOf ((k, v) :: ps') =
              1 + (1 + sizeOf k + sizeOf v) + sizeOf ps' := by simp
          have h3 : 0 < sizeOf ps' := by cases ps' <;> simp
          omega
        have h1 := ih1 v hszv d
        cases ps' with
        | nil =>
          have e1 : pfuelObj [(k, v)] =
              1 + max (pfuel v) (pfuelObj []) := rfl
          have e2 : prObjItems [(k, v)] d =
              indentChars d ++ quoteStr k ++ ':' :: ' ' :: pr v d := rfl
          have e3 : pfuelObj ([] : List (String × Json)) = 1 := rfl
          have hm : max (pfuel v) (pfuelObj []) ≤ (pr v d).length + 1 :=
            Nat.max_le.mpr ⟨h1, by omega⟩
          rw [e1, e2]
          simp only [List.length_append, List.length_cons, indentChars,
            List.length_replicate]
          omega
        | cons q qs =>
          have hszr : sizeOf (q :: qs) ≤ m := by
            have h2 : sizeOf ((k, v) :: q :: qs) =
                1 + (1 + sizeOf k + sizeOf v) + sizeOf (q :: qs) := by
              simp
            omega
          have h2 := ih3 (q :: qs) hszr d
          have e1 : pfuelObj ((k, v) :: q :: qs) =
              1 + max (pfuel v) (pfuelObj (q :: qs)) := rfl
          have e2 : prObjItems ((k, v) :: q :: qs) d =
              indentChars d ++ quoteStr k ++ ':' :: ' ' :: pr v d ++
                ',' :: '\n' :: prObjItems (q :: qs) d := rfl
          have hm : max (pfuel v) (pfuelObj (q :: qs)) ≤
              (pr v d).length + (prObjItems (q :: qs) d).length + 2 :=
            Nat.max_le.mpr ⟨by omega, by omega⟩
          rw [e1, e2]
          simp only [List.length_append, List.length_cons, indentChars,
            List.length_replicate]
          omega

/-- Parsing the canonical serialization of a well-formed value recovers
the value in enumeration order. -/
theorem jparse_stringify (u : Json) (h1 : numOk u)
    (h2 : nodupKeys u = true) : jparse (stringify u) = some (jsEnum u) := by
  have hw1 : numOk (jsEnum u) := jsEnum_numOk_aux _ u (le_refl _) h1
  have hw2 : nodupKeys (jsEnum u) = true :=
    jsEnum_nodup_aux _ u (le_refl _) h2
  obtain ⟨c, t0, hec, hwc, -, -⟩ := pr_head (jsEnum u) 0 hw1
  have hskip : skipWs (pr (jsEnum u) 0) = pr (jsEnum u) 0 := by
    rw [hec]
    exact skipWs_cons_of_not c _ hwc
  have hdata : (stringify u).data = pr (jsEnum u) 0 := rfl
  rw [jparse, hdata, hskip]
  have hfuel : pfuel (jsEnum u) ≤ (pr (jsEnum u) 0).length + 1 :=
    (pfuel_le_aux (sizeOf (jsEnum u))).1 (jsEnum u) (le_refl _) 0
  have hround := (parse_pr ((pr (jsEnum u) 0).length + 1)).1
    (jsEnum u) 0 [] hfuel hw1 hw2 numDelim_nil
  rw [List.append_nil] at hround
  rw [hround]
  rfl

/-- Sorting keys twice is the same as sorting once. -/
theorem sortKeys_sortKeys (v : Json) (hv : nodupKeys v = true) :
    sortKeys (sortKeys v) = sortKeys v :=
  sortKeys_jequiv (sortKeys v) v (sortKeys_nodup_aux _ v (le_refl _) hv)
    hv (jequiv_sortKeys_aux _ v (le_refl _) hv)

/-- Reordering into enumeration order does not change the key-sorted
rebuild. -/
theorem sortKeys_jsEnum (v : Json) (hv : nodupKeys v = true) :
    sortKeys (jsEnum v) = sortKeys v :=
  sortKeys_jequiv (jsEnum v) v (jsEnum_nodup_aux _ v (le_refl _) hv)
    hv (jequiv_jsEnum_aux _ v (le_refl _) hv)

/-- **C6**: `normalizedJson` is idempotent — re-normalizing an already
normalized text returns that text unchanged: whenever
`normalizedJson t = some s`, also `normalizedJson s = some s`. -/
theorem normalizedJson_idempotent (t s : String)
    (h : normalizedJson t = some s) : normalizedJson s = some s := by
  rw [normalizedJson] at h
  cases hp : jparse t with
  | none =>
    rw [hp] at h
    exact Option.noConfusion h
  | some v =>
    rw [hp] at h
    simp only [Option.some.injEq] at h
    subst h
    have hnd : nodupKeys v = true := jparse_nodup t v hp
    have hnum : numOk v := jparse_numOk t v hp
    have hndS : nodupKeys (sortKeys v) = true :=
      sortKeys_nodup_aux _ v (le_refl _) hnd
    have hnumS : numOk (sortKeys v) :=
      sortKeys_numOk_aux _ v (le_refl _) hnum
    rw [normalizedJson, jparse_stringify (sortKeys v) hnumS hndS]
    show some (stringify (sortKeys (jsEnum (sortKeys v)))) =
      some (stringify (sortKeys v))
    rw [sortKeys_jsEnum (sortKeys v) hndS, sortKeys_sortKeys v hnd]

/-- Witness for C6 at a concrete input: the normalizer maps the input to
a canonical text, and maps that canonical text to itself. -/
theorem normalizedJson_idempotent_witness :
    normalizedJson "\x7b\"b\":1,\"a\":2\x7d" =
      some "\x7b\n  \"a\": 2,\n  \"b\": 1\n\x7d" ∧
    normalizedJson "\x7b\n  \"a\": 2,\n  \"b\": 1\n\x7d" =
      some "\x7b\n  \"a\": 2,\n  \"b\": 1\n\x7d" := by
  have h : normalizedJson "\x7b\"b\":1,\"a\":2\x7d" =
      some "\x7b\n  \"a\": 2,\n  \"b\": 1\n\x7d" := by rfl
  exact ⟨h, normalizedJson_idempotent _ _ h⟩

end JsonFormatter
